import Mathlib

/-!
SynchronizedLRUCacheMap (lru.hpp): a shallow embedding.

The class keeps three data members: the capacity `_max_elems`, the hash map
`_map` from a key to the tuple (value, iterator into the queue), and the
recently-used queue `_ruq`, a `std::list<Key>` with the most recently used key
in front.

* A `std::list` node is modelled as a pair (node identity, key).  An iterator
  is the identity of the node it points to.  `push_front` allocates a node with
  an identity that was never used before (`fresh`), so an iterator of a node
  that has been erased or popped never designates a later node.
* `_map` is an association list.  Only `find`, `size`, `erase` and
  `operator[]` are used by the class, none of which observes the order of the
  association list.
* `size_t` is modelled by `Nat`: the class only compares sizes, it never does
  arithmetic on them.
* An operation ends in one of three ways: it returns, it throws
  `std::runtime_error`, or it runs into undefined behaviour (`back`/`pop_back`
  of an empty list, `erase` through an iterator that designates no node of the
  list).
* The mutex is not modelled: the embedding is the sequential semantics.
-/

namespace LRU

/-- The two `std::runtime_error` exceptions thrown by the class. -/
inductive RuntimeError where
  | keyNotFound
  | cacheSizeNotPositive
  deriving DecidableEq, Repr

/-- The message carried by the exception. -/
def RuntimeError.what : RuntimeError → String
  | .keyNotFound => "Key error: key not found in map"
  | .cacheSizeNotPositive => "cache size must be positive"

/-- How a member function ends: normal return with the returned value and the
object afterwards, a thrown exception with the object as it was left, or
undefined behaviour. -/
inductive Outcome (σ α : Type) where
  | returned : α → σ → Outcome σ α
  | thrown : RuntimeError → σ → Outcome σ α
  | undefined : Outcome σ α
  deriving DecidableEq, Repr

/-! ## std::list<Key> with node identities -/

/-- `std::list<Key>::back`: the key of the last node; undefined on an empty list. -/
def listBack {Key : Type} (l : List (Nat × Key)) : Option Key :=
  (l.getLast?).map Prod.snd

/-- `std::list<Key>::pop_back`: drop the last node. -/
def listPopBack {Key : Type} (l : List (Nat × Key)) : List (Nat × Key) :=
  l.dropLast

/-- `std::list<Key>::erase(pos)`: unlink the node designated by `pos`;
undefined when `pos` designates no node of the list. -/
def listErase {Key : Type} : List (Nat × Key) → Nat → Option (List (Nat × Key))
  | [], _ => none
  | (i, k) :: l, pos =>
    if i = pos then some l
    else (listErase l pos).map (fun l1 => (i, k) :: l1)

/-! ## std::unordered_map<Key, std::tuple<Value, iterator>> -/

/-- `_map.find(k)`: the tuple stored for `k`, `none` standing for `end()`. -/
def mapFind {Key Value : Type} [DecidableEq Key] :
    List (Key × (Value × Nat)) → Key → Option (Value × Nat)
  | [], _ => none
  | (j, e) :: m, k => if j = k then some e else mapFind m k

/-- `_map.erase(k)`: remove the entry of `k` if there is one. -/
def mapErase {Key Value : Type} [DecidableEq Key] :
    List (Key × (Value × Nat)) → Key → List (Key × (Value × Nat))
  | [], _ => []
  | (j, e) :: m, k => if j = k then m else (j, e) :: mapErase m k

/-- `_map[k] = e`: overwrite the tuple of `k`, or add the entry when `k` has none. -/
def mapAssign {Key Value : Type} [DecidableEq Key] :
    List (Key × (Value × Nat)) → Key → Value × Nat → List (Key × (Value × Nat))
  | [], k, e => [(k, e)]
  | (j, e1) :: m, k, e => if j = k then (j, e) :: m else (j, e1) :: mapAssign m k e

/-! ## The class -/

/-- The data members of `SynchronizedLRUCacheMap<Key, Value>`; `fresh` is the
identity the next allocated list node gets. -/
structure SynchronizedLRUCacheMap (Key Value : Type) where
  _max_elems : Nat
  _map : List (Key × (Value × Nat))
  _ruq : List (Nat × Key)
  fresh : Nat
  deriving DecidableEq, Repr

variable {Key Value : Type} [DecidableEq Key]

/-- The constructor `SynchronizedLRUCacheMap(size_t max_elems = 10)`. -/
def new (max_elems : Nat := 10) : SynchronizedLRUCacheMap Key Value :=
  { _max_elems := max_elems, _map := [], _ruq := [], fresh := 0 }

/-- `_ruq.push_front(k)`; the new node is the one `_ruq.begin()` designates. -/
def pushFront (c : SynchronizedLRUCacheMap Key Value) (k : Key) :
    SynchronizedLRUCacheMap Key Value :=
  { c with _ruq := (c.fresh, k) :: c._ruq, fresh := c.fresh + 1 }

/-- `_ruq.begin()`: the identity of the first node (only used right after a
`push_front`, so the list is not empty). -/
def ruqBegin (c : SynchronizedLRUCacheMap Key Value) : Nat :=
  match c._ruq with
  | [] => c.fresh
  | (i, _) :: _ => i

/-- The three statements that evict the least recently used key:
`lru_elem = _ruq.back(); _ruq.pop_back(); _map.erase(lru_elem);`. -/
def popLru (c : SynchronizedLRUCacheMap Key Value) :
    Option (SynchronizedLRUCacheMap Key Value) :=
  match listBack c._ruq with
  | none => none
  | some lru_elem =>
    some { c with _ruq := listPopBack c._ruq, _map := mapErase c._map lru_elem }

/-- `bool insert(Key k, Value v)`. -/
def insert (c : SynchronizedLRUCacheMap Key Value) (k : Key) (v : Value) :
    Outcome (SynchronizedLRUCacheMap Key Value) Bool :=
  match mapFind c._map k with
  | none =>
    match (if c._map.length = c._max_elems then popLru c else some c) with
    | none => .undefined
    | some c1 =>
      let c2 := pushFront c1 k
      .returned true { c2 with _map := mapAssign c2._map k (v, ruqBegin c2) }
  | some _ => .returned false c

/-- `bool update(Key k, Value v)`. -/
def update (c : SynchronizedLRUCacheMap Key Value) (k : Key) (v : Value) :
    Outcome (SynchronizedLRUCacheMap Key Value) Bool :=
  match mapFind c._map k with
  | some e =>
    match listErase c._ruq e.2 with
    | none => .undefined
    | some l =>
      let c2 := pushFront { c with _ruq := l } k
      .returned true { c2 with _map := mapAssign (mapErase c2._map k) k (v, ruqBegin c2) }
  | none => .returned false c

/-- `bool has(Key k)`. -/
def has (c : SynchronizedLRUCacheMap Key Value) (k : Key) : Bool :=
  (mapFind c._map k).isSome

/-- `Value access(Key k)`; the returned `std::get<0>(_map[k])` is read back
from the tuple `(v, _ruq.begin())` stored by the statement before, so it is `v`. -/
def access (c : SynchronizedLRUCacheMap Key Value) (k : Key) :
    Outcome (SynchronizedLRUCacheMap Key Value) Value :=
  match mapFind c._map k with
  | some e =>
    match listErase c._ruq e.2 with
    | none => .undefined
    | some l =>
      let c2 := pushFront { c with _ruq := l } k
      let v := e.1
      .returned v { c2 with _map := mapAssign c2._map k (v, ruqBegin c2) }
  | none => .thrown .keyNotFound c

/-- The loop of `resize`: `while (_map.size() > _max_elems) { pop the lru }`.
Every round that does not end in undefined behaviour shortens `_ruq`, so the
loop terminates. -/
def resizeLoop (c : SynchronizedLRUCacheMap Key Value) :
    Option (SynchronizedLRUCacheMap Key Value) :=
  if c._map.length > c._max_elems then
    match h : popLru c with
    | none => none
    | some c1 => resizeLoop c1
  else some c
termination_by c._ruq.length
decreasing_by
  unfold popLru at h
  cases hl : c._ruq with
  | nil => simp [listBack, hl] at h
  | cons a l =>
    cases hb : listBack c._ruq with
    | none => simp [hb] at h
    | some e =>
      simp only [hb, Option.some.injEq] at h
      subst h
      simp [listPopBack, hl]

/-- `void resize(size_t new_max_elems)`. -/
def resize (c : SynchronizedLRUCacheMap Key Value) (new_max_elems : Nat) :
    Outcome (SynchronizedLRUCacheMap Key Value) Unit :=
  if new_max_elems < 1 then .thrown .cacheSizeNotPositive c
  else
    match resizeLoop { c with _max_elems := new_max_elems } with
    | none => .undefined
    | some c1 => .returned () c1

/-- `size_t size() const`. -/
def size (c : SynchronizedLRUCacheMap Key Value) : Nat :=
  c._map.length

/-- `std::list<Key> cacheKeyState() const`: a copy of `_ruq`, that is its keys
from front to back. -/
def cacheKeyState (c : SynchronizedLRUCacheMap Key Value) : List Key :=
  c._ruq.map Prod.snd

/-- What is stored for `k`: `std::get<0>(_map[k])` when `k` has an entry. -/
def valueOf (c : SynchronizedLRUCacheMap Key Value) (k : Key) : Option Value :=
  (mapFind c._map k).map Prod.fst

/-- The state an operation leaves behind, `none` after undefined behaviour. -/
def Outcome.state? {σ α : Type} : Outcome σ α → Option σ
  | .returned _ s => some s
  | .thrown _ s => some s
  | .undefined => none

/-- A call of one of the four modifier methods. -/
inductive Op (Key Value : Type) where
  | insert : Key → Value → Op Key Value
  | update : Key → Value → Op Key Value
  | access : Key → Op Key Value
  | resize : Nat → Op Key Value
  deriving DecidableEq, Repr

/-- The object after one call (a caller that catches the exception goes on
with the object as the throwing call left it). -/
def step (c : SynchronizedLRUCacheMap Key Value) :
    Op Key Value → Option (SynchronizedLRUCacheMap Key Value)
  | .insert k v => (insert c k v).state?
  | .update k v => (update c k v).state?
  | .access k => (access c k).state?
  | .resize n => (resize c n).state?

/-- The object after a sequence of calls, `none` once a call has run into
undefined behaviour. -/
def run (c : SynchronizedLRUCacheMap Key Value) :
    List (Op Key Value) → Option (SynchronizedLRUCacheMap Key Value)
  | [] => some c
  | o :: os =>
    match step c o with
    | none => none
    | some c1 => run c1 os

/-- A state the class can be in: reached from a freshly constructed object by
a sequence of calls. -/
def Reachable (c : SynchronizedLRUCacheMap Key Value) : Prop :=
  ∃ (cap : Nat) (ops : List (Op Key Value)), run (new cap) ops = some c

/-- The two containers describe the same set of keys: no key and no node
identity occurs twice, the iterator stored for a key designates the node of
that key, every queued key has an entry, and `fresh` is above every identity
in use. -/
structure Consistent (c : SynchronizedLRUCacheMap Key Value) : Prop where
  mapKeys_nodup : (c._map.map Prod.fst).Nodup
  ruqIds_nodup : (c._ruq.map Prod.fst).Nodup
  ruqKeys_nodup : (c._ruq.map Prod.snd).Nodup
  handle : ∀ k e, mapFind c._map k = some e → (e.2, k) ∈ c._ruq
  present : ∀ p ∈ c._ruq, mapFind c._map p.2 ≠ none
  fresh_gt : ∀ p ∈ c._ruq, p.1 < c.fresh

/-- The key a call touches: the key of an `insert` or `update` that returns
true and of an `access` that returns; other calls touch nothing. -/
def touches (c : SynchronizedLRUCacheMap Key Value) : Op Key Value → Option Key
  | .insert k v =>
    match insert c k v with
    | .returned true _ => some k
    | _ => none
  | .update k v =>
    match update c k v with
    | .returned true _ => some k
    | _ => none
  | .access k =>
    match access c k with
    | .returned _ _ => some k
    | _ => none
  | .resize _ => none

/-- The time of the last touch of every key after a call: the call made at
clock `t` stamps the key it touches with `t + 1`. -/
def stamp (c : SynchronizedLRUCacheMap Key Value) (last : Key → Nat) (t : Nat)
    (o : Op Key Value) : Key → Nat :=
  match touches c o with
  | some k => fun j => if j = k then t + 1 else last j
  | none => last

/-- A sequence of calls run against a clock that starts at `t` and advances
by one per call; besides the object it yields the time of the last touch
of every key (`last` holds these times at the start, 0 standing for never). -/
def runTouch (c : SynchronizedLRUCacheMap Key Value) (last : Key → Nat) (t : Nat) :
    List (Op Key Value) → Option (SynchronizedLRUCacheMap Key Value × (Key → Nat))
  | [] => some (c, last)
  | o :: os =>
    match step c o with
    | none => none
    | some c1 => runTouch c1 (stamp c last t o) (t + 1) os

/-- The queue is in the order of the last touches: from front to back the
times of the last touch strictly decrease, and every queued key has been
touched at a time between 1 and the clock `t`. -/
def LruOrdered (c : SynchronizedLRUCacheMap Key Value) (last : Key → Nat) (t : Nat) : Prop :=
  (cacheKeyState c).Pairwise (fun a b => last b < last a) ∧
  ∀ a ∈ cacheKeyState c, 1 ≤ last a ∧ last a ≤ t

/-- A caller that inserts the given pairs one after the other with nothing in
between, keeping what every `insert` returned; `none` when a call throws or
runs into undefined behaviour. -/
def insertAll (c : SynchronizedLRUCacheMap Key Value) :
    List (Key × Value) → Option (List Bool × SynchronizedLRUCacheMap Key Value)
  | [] => some ([], c)
  | (k, v) :: kvs =>
    match insert c k v with
    | .returned b c1 => (insertAll c1 kvs).map (fun r => (b :: r.1, r.2))
    | _ => none

/-- The method `bool has(Key k)` as a call on the object: its body is the one
`return` statement, which reads `_map` and writes no data member. -/
def hasCall (c : SynchronizedLRUCacheMap Key Value) (k : Key) :
    Outcome (SynchronizedLRUCacheMap Key Value) Bool :=
  .returned (has c k) c

/-- The pair a call writes: the key and value of an `insert` or `update` that
returns true; other calls write nothing. -/
def writes (c : SynchronizedLRUCacheMap Key Value) : Op Key Value → Option (Key × Value)
  | .insert k v =>
    match insert c k v with
    | .returned true _ => some (k, v)
    | _ => none
  | .update k v =>
    match update c k v with
    | .returned true _ => some (k, v)
    | _ => none
  | .access _ => none
  | .resize _ => none

/-- The value most recently written for every key after a call. -/
def noteWrite (c : SynchronizedLRUCacheMap Key Value) (w : Key → Option Value)
    (o : Op Key Value) : Key → Option Value :=
  match writes c o with
  | some (k, v) => fun j => if j = k then some v else w j
  | none => w

/-- A sequence of calls together with, for every key, the value passed to the
most recent `insert` or `update` of that key that returned true. -/
def runWrites (c : SynchronizedLRUCacheMap Key Value) (w : Key → Option Value) :
    List (Op Key Value) → Option (SynchronizedLRUCacheMap Key Value × (Key → Option Value))
  | [] => some (c, w)
  | o :: os =>
    match step c o with
    | none => none
    | some c1 => runWrites c1 (noteWrite c w o) os

/-- A sequence of calls together with the history of touches, the most recent
touch first (`hist` is the history at the start). -/
def runHistory (c : SynchronizedLRUCacheMap Key Value) (hist : List Key) :
    List (Op Key Value) → Option (SynchronizedLRUCacheMap Key Value × List Key)
  | [] => some (c, hist)
  | o :: os =>
    match step c o with
    | none => none
    | some c1 =>
      runHistory c1 (match touches c o with
                     | some k => k :: hist
                     | none => hist) os

/-- Reference definition of LRU order, from the words of the specification:
the distinct keys of a touch history (most recent touch first), from the most
to the least recently touched. -/
def recencyOrder : List Key → List Key
  | [] => []
  | k :: older => k :: (recencyOrder older).filter (fun j => j ≠ k)

/-- Reference definition of the content of an LRU cache of capacity `cap`
after a touch history: the `min cap d` most recently touched distinct keys,
`d` being the number of distinct keys of the history. -/
def referenceLru (cap : Nat) (hist : List Key) : List Key :=
  (recencyOrder hist).take (min cap hist.dedup.length)

/-- Whether the call is a `resize`. -/
def Op.isResize : Op Key Value → Bool
  | .resize _ => true
  | _ => false

/-- An example object: capacity 2 after `insert(1, 10)`, `insert(2, 20)`,
`access(1)`, `insert(3, 30)`; key 2 has been evicted. -/
def demoCache : SynchronizedLRUCacheMap Nat Nat :=
  { _max_elems := 2, _map := [(1, 10, 2), (3, 30, 3)], _ruq := [(3, 3), (2, 1)], fresh := 4 }

/-- The calls that lead to `demoCache`. -/
def demoOps : List (Op Nat Nat) :=
  [.insert 1 10, .insert 2 20, .access 1, .insert 3 30]

/-! ## Lemmas on the list and the map -/

theorem resizeLoop_eq (c : SynchronizedLRUCacheMap Key Value) :
    resizeLoop c
      = if c._map.length > c._max_elems then (popLru c).bind resizeLoop else some c := by
  rw [resizeLoop]
  split
  · split <;> rename_i h <;> simp [h]
  · rfl

theorem mapFind_ne_none_iff (m : List (Key × (Value × Nat))) (k : Key) :
    mapFind m k ≠ none ↔ k ∈ m.map Prod.fst := by
  induction m with
  | nil => simp [mapFind]
  | cons a m ih =>
    obtain ⟨j, e⟩ := a
    by_cases h : j = k
    · simp [mapFind, h]
    · simp only [mapFind, h, if_false, List.map_cons, List.mem_cons, ih]
      constructor
      · intro h1; exact Or.inr h1
      · rintro (h1 | h1)
        · exact absurd h1.symm h
        · exact h1

theorem mapFind_eq_none_iff (m : List (Key × (Value × Nat))) (k : Key) :
    mapFind m k = none ↔ k ∉ m.map Prod.fst := by
  rw [← mapFind_ne_none_iff]; simp

theorem mapFind_mapAssign (m : List (Key × (Value × Nat))) (k j : Key) (e : Value × Nat) :
    mapFind (mapAssign m k e) j = if k = j then some e else mapFind m j := by
  induction m with
  | nil => simp [mapAssign, mapFind]
  | cons a m ih =>
    obtain ⟨i, e1⟩ := a
    by_cases h : i = k
    · subst h
      by_cases h2 : i = j <;> simp [mapAssign, mapFind, h2]
    · by_cases h2 : i = j
      · subst h2
        have h3 : ¬ k = i := fun h3 => h h3.symm
        simp [mapAssign, mapFind, h, h3]
      · simp [mapAssign, mapFind, h, h2, ih]

theorem mapFind_mapErase (m : List (Key × (Value × Nat))) (k j : Key)
    (hn : (m.map Prod.fst).Nodup) :
    mapFind (mapErase m k) j = if k = j then none else mapFind m j := by
  induction m with
  | nil => simp [mapErase, mapFind]
  | cons a m ih =>
    obtain ⟨i, e1⟩ := a
    simp only [List.map_cons, List.nodup_cons] at hn
    by_cases h : i = k
    · subst h
      by_cases h2 : i = j
      · subst h2
        simp only [mapErase, if_true]
        exact (mapFind_eq_none_iff m i).2 hn.1
      · simp [mapErase, mapFind, h2]
    · by_cases h2 : i = j
      · subst h2
        have h3 : ¬ k = i := fun h3 => h h3.symm
        simp [mapErase, mapFind, h, h3]
      · simp [mapErase, mapFind, h, h2, ih hn.2]

theorem keys_mapAssign (m : List (Key × (Value × Nat))) (k : Key) (e : Value × Nat) :
    (mapAssign m k e).map Prod.fst
      = if k ∈ m.map Prod.fst then m.map Prod.fst else m.map Prod.fst ++ [k] := by
  induction m with
  | nil => simp [mapAssign]
  | cons a m ih =>
    obtain ⟨i, e1⟩ := a
    by_cases h : i = k
    · subst h; simp [mapAssign]
    · have h3 : ¬ k = i := fun h3 => h h3.symm
      simp only [mapAssign, h, if_false, List.map_cons, ih, List.mem_cons, h3, false_or]
      split <;> simp

theorem keys_mapErase (m : List (Key × (Value × Nat))) (k : Key) :
    (mapErase m k).map Prod.fst = (m.map Prod.fst).erase k := by
  induction m with
  | nil => simp [mapErase]
  | cons a m ih =>
    obtain ⟨i, e1⟩ := a
    by_cases h : i = k
    · subst h; simp [mapErase]
    · simp [mapErase, h, ih, List.erase_cons_tail]

theorem listErase_of_mem (l : List (Nat × Key)) (pos : Nat) (k : Key)
    (hi : (l.map Prod.fst).Nodup) (hk : (l.map Prod.snd).Nodup) (hm : (pos, k) ∈ l) :
    listErase l pos = some (l.filter (fun p => !decide (p.2 = k))) := by
  induction l with
  | nil => simp at hm
  | cons a l ih =>
    obtain ⟨i, j⟩ := a
    simp only [List.map_cons, List.nodup_cons, List.mem_map, not_exists, not_and] at hi hk
    by_cases h : i = pos
    · subst h
      have hjk : j = k := by
        rcases List.mem_cons.1 hm with h1 | h1
        · exact (Prod.mk.inj h1).2.symm
        · exact absurd rfl (hi.1 (i, k) h1)
      subst hjk
      have hf : l.filter (fun p => !decide (p.2 = j)) = l := by
        rw [List.filter_eq_self]
        intro p hp
        have := hk.1 p hp
        simpa using this
      simp [listErase, hf]
    · have hm1 : (pos, k) ∈ l := by
        rcases List.mem_cons.1 hm with h1 | h1
        · exact absurd (Prod.mk.inj h1).1.symm h
        · exact h1
      have hjk : j ≠ k := fun h2 => hk.1 (pos, k) hm1 h2.symm
      simp [listErase, h, ih hi.2 hk.2 hm1, hjk]

theorem keys_filter_ne (l : List (Nat × Key)) (k : Key) :
    (l.filter (fun p => !decide (p.2 = k))).map Prod.snd
      = (l.map Prod.snd).filter (fun j => !decide (j = k)) := by
  induction l with
  | nil => rfl
  | cons a l ih =>
    by_cases h : a.2 = k <;> simp [List.filter_cons, h, ih]

omit [DecidableEq Key] in
theorem ruq_nil_or_concat (l : List (Nat × Key)) :
    l = [] ∨ ∃ l1 p, l = l1 ++ [p] := by
  rcases List.eq_nil_or_concat l with h | ⟨l1, p, h⟩
  · exact Or.inl h
  · exact Or.inr ⟨l1, p, by simpa using h⟩

theorem Consistent.mem_keys_iff {c : SynchronizedLRUCacheMap Key Value} (hc : Consistent c)
    (k : Key) : k ∈ cacheKeyState c ↔ mapFind c._map k ≠ none := by
  constructor
  · intro h
    obtain ⟨p, hp, rfl⟩ := List.mem_map.1 h
    exact hc.present p hp
  · intro h
    cases he : mapFind c._map k with
    | none => exact absurd he h
    | some e => exact List.mem_map.2 ⟨(e.2, k), hc.handle k e he, rfl⟩

theorem Consistent.keys_perm {c : SynchronizedLRUCacheMap Key Value} (hc : Consistent c) :
    (cacheKeyState c).Perm (c._map.map Prod.fst) := by
  refine (List.perm_ext_iff_of_nodup hc.ruqKeys_nodup hc.mapKeys_nodup).2 ?_
  intro k
  rw [← mapFind_ne_none_iff]
  exact hc.mem_keys_iff k

theorem Consistent.length_eq {c : SynchronizedLRUCacheMap Key Value} (hc : Consistent c) :
    c._ruq.length = c._map.length := by
  have := hc.keys_perm.length_eq
  simpa [cacheKeyState] using this

/-! ## The eviction step, the push of a new key and the promotion of a present key -/

theorem popLru_spec {c : SynchronizedLRUCacheMap Key Value} (hc : Consistent c)
    (l : List (Nat × Key)) (p : Nat × Key) (hl : c._ruq = l ++ [p]) :
    ∃ c1, popLru c = some c1 ∧ Consistent c1 ∧ c1._max_elems = c._max_elems ∧
      c1._ruq = l ∧ c1.fresh = c.fresh ∧
      (∀ j, mapFind c1._map j = if p.2 = j then none else mapFind c._map j) ∧
      c1._map.length + 1 = c._map.length := by
  have hback : listBack c._ruq = some p.2 := by simp [listBack, hl]
  have hpop : listPopBack c._ruq = l := by simp [listPopBack, hl]
  have hfind : ∀ j, mapFind (mapErase c._map p.2) j = if p.2 = j then none else mapFind c._map j :=
    fun j => mapFind_mapErase c._map p.2 j hc.mapKeys_nodup
  have hids := hc.ruqIds_nodup
  have hkeys := hc.ruqKeys_nodup
  rw [hl] at hids hkeys
  simp only [List.map_append, List.map_cons, List.map_nil] at hids hkeys
  have hkeys1 : p.2 ∉ l.map Prod.snd := by
    intro h
    exact (List.nodup_append.1 hkeys).2.2 h (List.mem_singleton_self _)
  have hcons : Consistent
      ({ c with _ruq := listPopBack c._ruq, _map := mapErase c._map p.2 } :
        SynchronizedLRUCacheMap Key Value) := by
    refine ⟨?_, ?_, ?_, ?_, ?_, ?_⟩
    · show ((mapErase c._map p.2).map Prod.fst).Nodup
      rw [keys_mapErase]
      exact hc.mapKeys_nodup.erase _
    · show ((listPopBack c._ruq).map Prod.fst).Nodup
      rw [hpop]; exact (List.nodup_append.1 hids).1
    · show ((listPopBack c._ruq).map Prod.snd).Nodup
      rw [hpop]; exact (List.nodup_append.1 hkeys).1
    · intro j e he
      show (e.2, j) ∈ listPopBack c._ruq
      have he1 : mapFind (mapErase c._map p.2) j = some e := he
      rw [hfind] at he1
      by_cases hj : p.2 = j
      · simp [hj] at he1
      · simp only [hj, if_false] at he1
        have hm := hc.handle j e he1
        rw [hl] at hm
        rw [hpop]
        rcases List.mem_append.1 hm with h1 | h1
        · exact h1
        · have h2 := List.mem_singleton.1 h1
          exact absurd (congrArg Prod.snd h2).symm hj
    · intro q hq
      show mapFind (mapErase c._map p.2) q.2 ≠ none
      have hq1 : q ∈ l := by rw [← hpop]; exact hq
      have hne : ¬ p.2 = q.2 := fun h => hkeys1 (h ▸ List.mem_map_of_mem Prod.snd hq1)
      rw [hfind, if_neg hne]
      exact hc.present q (by rw [hl]; exact List.mem_append_left _ hq1)
    · intro q hq
      have hq1 : q ∈ l := by rw [← hpop]; exact hq
      exact hc.fresh_gt q (by rw [hl]; exact List.mem_append_left _ hq1)
  refine ⟨_, by simp only [popLru, hback], hcons, rfl, hpop, rfl, hfind, ?_⟩
  have h1 := hcons.length_eq
  have h2 := hc.length_eq
  simp only [hpop] at h1
  rw [hl] at h2
  simp only [List.length_append, List.length_singleton] at h2
  show (mapErase c._map p.2).length + 1 = c._map.length
  omega

theorem pushAssign_consistent {c : SynchronizedLRUCacheMap Key Value} (hc : Consistent c)
    (k : Key) (v : Value) (hk : mapFind c._map k = none) :
    Consistent ({ _max_elems := c._max_elems, _map := mapAssign c._map k (v, c.fresh),
                  _ruq := (c.fresh, k) :: c._ruq, fresh := c.fresh + 1 } :
                SynchronizedLRUCacheMap Key Value) := by
  have hk1 : k ∉ c._map.map Prod.fst := (mapFind_eq_none_iff _ _).1 hk
  have hk2 : k ∉ cacheKeyState c := fun h => (hc.mem_keys_iff k).1 h hk
  refine ⟨?_, ?_, ?_, ?_, ?_, ?_⟩
  · show ((mapAssign c._map k (v, c.fresh)).map Prod.fst).Nodup
    rw [keys_mapAssign, if_neg hk1]
    refine List.nodup_append.2 ⟨hc.mapKeys_nodup, List.nodup_singleton k, ?_⟩
    intro a ha hb
    rw [List.mem_singleton] at hb
    exact hk1 (hb ▸ ha)
  · show (((c.fresh, k) :: c._ruq).map Prod.fst).Nodup
    simp only [List.map_cons, List.nodup_cons]
    refine ⟨?_, hc.ruqIds_nodup⟩
    intro h
    obtain ⟨q, hq, hq1⟩ := List.mem_map.1 h
    have := hc.fresh_gt q hq
    omega
  · show (((c.fresh, k) :: c._ruq).map Prod.snd).Nodup
    simp only [List.map_cons, List.nodup_cons]
    exact ⟨hk2, hc.ruqKeys_nodup⟩
  · intro j e he
    show (e.2, j) ∈ (c.fresh, k) :: c._ruq
    have he1 : mapFind (mapAssign c._map k (v, c.fresh)) j = some e := he
    rw [mapFind_mapAssign] at he1
    by_cases hj : k = j
    · simp only [hj, if_true, Option.some.injEq] at he1
      subst he1
      simp [hj]
    · simp only [hj, if_false] at he1
      exact List.mem_cons_of_mem _ (hc.handle j e he1)
  · intro q hq
    show mapFind (mapAssign c._map k (v, c.fresh)) q.2 ≠ none
    rw [mapFind_mapAssign]
    by_cases hj : k = q.2
    · simp [hj]
    · simp only [hj, if_false]
      rcases List.mem_cons.1 hq with h1 | h1
      · exact absurd (congrArg Prod.snd h1).symm hj
      · exact hc.present q h1
  · intro q hq
    show q.1 < c.fresh + 1
    rcases List.mem_cons.1 hq with h1 | h1
    · subst h1; exact Nat.lt_succ_self _
    · exact Nat.lt_succ_of_lt (hc.fresh_gt q h1)

theorem promote_consistent {c : SynchronizedLRUCacheMap Key Value} (hc : Consistent c)
    (k : Key) (v : Value) (m1 : List (Key × (Value × Nat)))
    (hn : (m1.map Prod.fst).Nodup)
    (hf : ∀ j, mapFind m1 j = if k = j then some (v, c.fresh) else mapFind c._map j) :
    Consistent ({ _max_elems := c._max_elems, _map := m1,
                  _ruq := (c.fresh, k) :: c._ruq.filter (fun p => !decide (p.2 = k)),
                  fresh := c.fresh + 1 } : SynchronizedLRUCacheMap Key Value) := by
  refine ⟨hn, ?_, ?_, ?_, ?_, ?_⟩
  · show (((c.fresh, k) :: c._ruq.filter (fun p => !decide (p.2 = k))).map Prod.fst).Nodup
    simp only [List.map_cons, List.nodup_cons]
    refine ⟨?_, (hc.ruqIds_nodup.sublist ((List.filter_sublist _).map _))⟩
    intro h
    obtain ⟨q, hq, hq1⟩ := List.mem_map.1 h
    have := hc.fresh_gt q (List.mem_of_mem_filter hq)
    omega
  · show (((c.fresh, k) :: c._ruq.filter (fun p => !decide (p.2 = k))).map Prod.snd).Nodup
    simp only [List.map_cons, List.nodup_cons]
    refine ⟨?_, (hc.ruqKeys_nodup.sublist ((List.filter_sublist _).map _))⟩
    intro h
    obtain ⟨q, hq, hq1⟩ := List.mem_map.1 h
    have := (List.mem_filter.1 hq).2
    simp [hq1] at this
  · intro j e he
    show (e.2, j) ∈ (c.fresh, k) :: c._ruq.filter (fun p => !decide (p.2 = k))
    have he1 : mapFind m1 j = some e := he
    rw [hf] at he1
    by_cases hj : k = j
    · simp only [hj, if_true, Option.some.injEq] at he1
      subst he1
      simp [hj]
    · simp only [hj, if_false] at he1
      refine List.mem_cons_of_mem _ (List.mem_filter.2 ⟨hc.handle j e he1, ?_⟩)
      have hj1 : ¬ j = k := fun h => hj h.symm
      simp [hj1]
  · intro q hq
    show mapFind m1 q.2 ≠ none
    rw [hf]
    by_cases hj : k = q.2
    · simp [hj]
    · simp only [hj, if_false]
      rcases List.mem_cons.1 hq with h1 | h1
      · exact absurd (congrArg Prod.snd h1).symm hj
      · exact hc.present q (List.mem_of_mem_filter h1)
  · intro q hq
    show q.1 < c.fresh + 1
    rcases List.mem_cons.1 hq with h1 | h1
    · subst h1; exact Nat.lt_succ_self _
    · exact Nat.lt_succ_of_lt (hc.fresh_gt q (List.mem_of_mem_filter h1))

theorem length_mapAssign (m : List (Key × (Value × Nat))) (k : Key) (e : Value × Nat) :
    (mapAssign m k e).length = if k ∈ m.map Prod.fst then m.length else m.length + 1 := by
  have h := congrArg List.length (keys_mapAssign m k e)
  rw [List.length_map] at h
  rw [h]
  split <;> simp

theorem length_mapErase (m : List (Key × (Value × Nat))) (k : Key)
    (hk : k ∈ m.map Prod.fst) : (mapErase m k).length + 1 = m.length := by
  have h := congrArg List.length (keys_mapErase m k)
  rw [List.length_map, List.length_erase_of_mem hk, List.length_map] at h
  have h1 : 0 < (m.map Prod.fst).length := List.length_pos_of_mem hk
  rw [List.length_map] at h1
  omega

/-! ## What each method does on a consistent object -/

theorem insert_absent {c : SynchronizedLRUCacheMap Key Value} (hc : Consistent c)
    (hb : c._map.length ≤ c._max_elems) (hpos : 1 ≤ c._max_elems)
    (k : Key) (v : Value) (hk : mapFind c._map k = none) :
    ∃ c1, insert c k v = .returned true c1 ∧ Consistent c1 ∧
      c1._map.length ≤ c1._max_elems ∧ c1._max_elems = c._max_elems ∧
      cacheKeyState c1
        = k :: (if size c = c._max_elems then (cacheKeyState c).dropLast
                else cacheKeyState c) ∧
      mapFind c1._map k = some (v, c.fresh) ∧
      (∀ j, j ≠ k → j ∈ cacheKeyState c1 → mapFind c1._map j = mapFind c._map j) := by
  have hk1 : k ∉ c._map.map Prod.fst := (mapFind_eq_none_iff _ _).1 hk
  by_cases hfull : c._map.length = c._max_elems
  · have hlen := hc.length_eq
    rcases ruq_nil_or_concat c._ruq with hnil | ⟨l, p, hl⟩
    · rw [hnil] at hlen
      simp only [List.length_nil] at hlen
      omega
    · obtain ⟨c1, hpop, hc1, hcap, hruq, hfresh, hfind, hlen1⟩ := popLru_spec hc l p hl
      have hk2 : mapFind c1._map k = none := by
        rw [hfind]; split
        · rfl
        · exact hk
      have hk3 : k ∉ c1._map.map Prod.fst := (mapFind_eq_none_iff _ _).1 hk2
      have hcons := pushAssign_consistent hc1 k v hk2
      refine ⟨_, ?_, hcons, ?_, hcap, ?_, ?_, ?_⟩
      · simp only [insert, hk, hfull, if_true, hpop]
        rfl
      · show (mapAssign c1._map k (v, c1.fresh)).length ≤ c1._max_elems
        rw [length_mapAssign, if_neg hk3, hcap]
        omega
      · show k :: c1._ruq.map Prod.snd = _
        simp only [size, hfull, if_true, cacheKeyState, hruq, hl, List.map_append,
          List.map_cons, List.map_nil, List.dropLast_concat]
      · show mapFind (mapAssign c1._map k (v, c1.fresh)) k = _
        rw [mapFind_mapAssign, if_pos rfl, hfresh]
      · intro j hj hmem
        show mapFind (mapAssign c1._map k (v, c1.fresh)) j = _
        have hj1 : ¬ k = j := fun h => hj h.symm
        rw [mapFind_mapAssign, if_neg hj1, hfind]
        have hmem1 : j ∈ k :: c1._ruq.map Prod.snd := hmem
        have hmem2 : j ∈ l.map Prod.snd := by
          rcases List.mem_cons.1 hmem1 with h | h
          · exact absurd h hj
          · rw [hruq] at h; exact h
        have hkeys := hc.ruqKeys_nodup
        rw [hl] at hkeys
        simp only [List.map_append, List.map_cons, List.map_nil] at hkeys
        have hne : ¬ p.2 = j := by
          intro h
          exact (List.nodup_append.1 hkeys).2.2 (h ▸ hmem2) (List.mem_singleton_self _)
        rw [if_neg hne]
  · have hcons := pushAssign_consistent hc k v hk
    refine ⟨_, ?_, hcons, ?_, rfl, ?_, ?_, ?_⟩
    · simp only [insert, hk, hfull, if_false]
      rfl
    · show (mapAssign c._map k (v, c.fresh)).length ≤ c._max_elems
      rw [length_mapAssign, if_neg hk1]
      omega
    · show k :: c._ruq.map Prod.snd = _
      simp only [size, hfull, if_false, cacheKeyState]
    · show mapFind (mapAssign c._map k (v, c.fresh)) k = _
      rw [mapFind_mapAssign, if_pos rfl]
    · intro j hj _
      show mapFind (mapAssign c._map k (v, c.fresh)) j = _
      have hj1 : ¬ k = j := fun h => hj h.symm
      rw [mapFind_mapAssign, if_neg hj1]

theorem update_present {c : SynchronizedLRUCacheMap Key Value} (hc : Consistent c)
    (k : Key) (v : Value) (e : Value × Nat) (he : mapFind c._map k = some e) :
    ∃ c1, update c k v = .returned true c1 ∧ Consistent c1 ∧
      c1._max_elems = c._max_elems ∧ c1._map.length = c._map.length ∧
      cacheKeyState c1 = k :: (cacheKeyState c).filter (fun j => !decide (j = k)) ∧
      (∀ j, mapFind c1._map j = if k = j then some (v, c.fresh) else mapFind c._map j) := by
  have hk1 : k ∈ c._map.map Prod.fst := (mapFind_ne_none_iff _ _).1 (by rw [he]; simp)
  have herase := listErase_of_mem c._ruq e.2 k hc.ruqIds_nodup hc.ruqKeys_nodup (hc.handle k e he)
  have hk2 : k ∉ (mapErase c._map k).map Prod.fst := by
    rw [keys_mapErase]
    exact fun h => ((hc.mapKeys_nodup.mem_erase_iff).1 h).1 rfl
  have hf : ∀ j, mapFind (mapAssign (mapErase c._map k) k (v, c.fresh)) j
      = if k = j then some (v, c.fresh) else mapFind c._map j := by
    intro j
    rw [mapFind_mapAssign, mapFind_mapErase _ _ _ hc.mapKeys_nodup]
    split <;> rfl
  have hn : ((mapAssign (mapErase c._map k) k (v, c.fresh)).map Prod.fst).Nodup := by
    rw [keys_mapAssign, if_neg hk2, keys_mapErase]
    refine List.nodup_append.2 ⟨hc.mapKeys_nodup.erase _, List.nodup_singleton k, ?_⟩
    intro a ha hb
    rw [List.mem_singleton] at hb
    rw [keys_mapErase] at hk2
    exact hk2 (hb ▸ ha)
  refine ⟨_, ?_, promote_consistent hc k v _ hn hf, rfl, ?_, ?_, hf⟩
  · simp only [update, he, herase]
    rfl
  · show (mapAssign (mapErase c._map k) k (v, c.fresh)).length = c._map.length
    rw [length_mapAssign, if_neg hk2]
    exact length_mapErase _ _ hk1
  · show k :: (c._ruq.filter (fun p => !decide (p.2 = k))).map Prod.snd = _
    rw [keys_filter_ne]
    rfl

theorem access_present {c : SynchronizedLRUCacheMap Key Value} (hc : Consistent c)
    (k : Key) (e : Value × Nat) (he : mapFind c._map k = some e) :
    ∃ c1, access c k = .returned e.1 c1 ∧ Consistent c1 ∧
      c1._max_elems = c._max_elems ∧ c1._map.length = c._map.length ∧
      cacheKeyState c1 = k :: (cacheKeyState c).filter (fun j => !decide (j = k)) ∧
      (∀ j, mapFind c1._map j = if k = j then some (e.1, c.fresh) else mapFind c._map j) := by
  have hk1 : k ∈ c._map.map Prod.fst := (mapFind_ne_none_iff _ _).1 (by rw [he]; simp)
  have herase := listErase_of_mem c._ruq e.2 k hc.ruqIds_nodup hc.ruqKeys_nodup (hc.handle k e he)
  have hf : ∀ j, mapFind (mapAssign c._map k (e.1, c.fresh)) j
      = if k = j then some (e.1, c.fresh) else mapFind c._map j :=
    fun j => mapFind_mapAssign _ _ _ _
  have hn : ((mapAssign c._map k (e.1, c.fresh)).map Prod.fst).Nodup := by
    rw [keys_mapAssign, if_pos hk1]
    exact hc.mapKeys_nodup
  refine ⟨_, ?_, promote_consistent hc k e.1 _ hn hf, rfl, ?_, ?_, hf⟩
  · simp only [access, he, herase]
    rfl
  · show (mapAssign c._map k (e.1, c.fresh)).length = c._map.length
    rw [length_mapAssign, if_pos hk1]
  · show k :: (c._ruq.filter (fun p => !decide (p.2 = k))).map Prod.snd = _
    rw [keys_filter_ne]
    rfl

theorem resizeLoop_spec (n : Nat) :
    ∀ c : SynchronizedLRUCacheMap Key Value, c._ruq.length = n → Consistent c →
    ∃ c1, resizeLoop c = some c1 ∧ Consistent c1 ∧ c1._max_elems = c._max_elems ∧
      c1._map.length ≤ c1._max_elems ∧
      cacheKeyState c1 = (cacheKeyState c).take c._max_elems ∧
      (∀ j ∈ cacheKeyState c1, mapFind c1._map j = mapFind c._map j) := by
  induction n with
  | zero =>
    intro c hn hc
    have hlen := hc.length_eq
    have hle : ¬ c._map.length > c._max_elems := by omega
    refine ⟨c, by rw [resizeLoop_eq, if_neg hle], hc, rfl, by omega, ?_, fun _ _ => rfl⟩
    rw [List.take_of_length_le]
    simp only [cacheKeyState, List.length_map]; omega
  | succ n ih =>
    intro c hn hc
    have hlen := hc.length_eq
    by_cases hgt : c._map.length > c._max_elems
    · rcases ruq_nil_or_concat c._ruq with hnil | ⟨l, p, hl⟩
      · rw [hnil] at hn; simp at hn
      · obtain ⟨c1, hpop, hc1, hcap, hruq, _, hfind, hlen1⟩ := popLru_spec hc l p hl
        have hn1 : c1._ruq.length = n := by
          rw [hruq]
          rw [hl] at hn
          simpa using hn
        obtain ⟨c2, hloop, hc2, hcap2, hb2, hkeys2, hfind2⟩ := ih c1 hn1 hc1
        have hkeys := hc.ruqKeys_nodup
        rw [hl] at hkeys
        simp only [List.map_append, List.map_cons, List.map_nil] at hkeys
        have hk1 : cacheKeyState c1 = l.map Prod.snd := by rw [cacheKeyState, hruq]
        refine ⟨c2, ?_, hc2, hcap2.trans hcap, hb2, ?_, ?_⟩
        · rw [resizeLoop_eq, if_pos hgt, hpop]
          exact hloop
        · rw [hkeys2, hcap, hk1]
          simp only [cacheKeyState, hl, List.map_append, List.map_cons, List.map_nil]
          rw [List.take_append_of_le_length]
          have h1 := hc1.length_eq
          rw [hruq] at h1
          rw [List.length_map]
          omega
        · intro j hj
          rw [hfind2 j hj, hfind]
          have hj1 : j ∈ l.map Prod.snd := by
            rw [hkeys2, hk1] at hj
            exact List.mem_of_mem_take hj
          have hne : ¬ p.2 = j := by
            intro h
            exact (List.nodup_append.1 hkeys).2.2 (h ▸ hj1) (List.mem_singleton_self _)
          rw [if_neg hne]
    · refine ⟨c, by rw [resizeLoop_eq, if_neg hgt], hc, rfl, by omega, ?_, fun _ _ => rfl⟩
      rw [List.take_of_length_le]
      simp only [cacheKeyState, List.length_map]; omega

theorem resize_valid {c : SynchronizedLRUCacheMap Key Value} (hc : Consistent c)
    (n : Nat) (hn : 1 ≤ n) :
    ∃ c1, resize c n = .returned () c1 ∧ Consistent c1 ∧ c1._max_elems = n ∧
      c1._map.length ≤ c1._max_elems ∧
      cacheKeyState c1 = (cacheKeyState c).take n ∧
      (∀ j ∈ cacheKeyState c1, mapFind c1._map j = mapFind c._map j) := by
  have hc0 : Consistent ({ c with _max_elems := n } : SynchronizedLRUCacheMap Key Value) :=
    ⟨hc.mapKeys_nodup, hc.ruqIds_nodup, hc.ruqKeys_nodup, hc.handle, hc.present, hc.fresh_gt⟩
  obtain ⟨c1, hloop, hc1, hcap, hb, hkeys, hfind⟩ := resizeLoop_spec _ _ rfl hc0
  have hn1 : ¬ n < 1 := by omega
  refine ⟨c1, ?_, hc1, hcap, hb, hkeys, hfind⟩
  simp only [resize, hn1, if_false, hloop]

/-! ## The invariant of the class -/

theorem consistent_new (cap : Nat) :
    Consistent (new cap : SynchronizedLRUCacheMap Key Value) := by
  refine ⟨?_, ?_, ?_, ?_, ?_, ?_⟩ <;> simp [new, mapFind]

/-- One call on a consistent object within its capacity: when the capacity is
positive the call does not run into undefined behaviour, and whenever it does
not, the object is again consistent and within its capacity. -/
theorem step_inv {c : SynchronizedLRUCacheMap Key Value} (hc : Consistent c)
    (hb : c._map.length ≤ c._max_elems) (o : Op Key Value) :
    (1 ≤ c._max_elems → ∃ c1, step c o = some c1) ∧
    (∀ c1, step c o = some c1 →
      Consistent c1 ∧ c1._map.length ≤ c1._max_elems ∧
      (1 ≤ c._max_elems → 1 ≤ c1._max_elems)) := by
  cases o with
  | insert k v =>
    cases hk : mapFind c._map k with
    | some e =>
      have h : insert c k v = .returned false c := by simp only [insert, hk]
      simp only [step, h, Outcome.state?, Option.some.injEq]
      exact ⟨fun _ => ⟨c, rfl⟩, fun c1 h1 => h1 ▸ ⟨hc, hb, id⟩⟩
    | none =>
      by_cases hpos : 1 ≤ c._max_elems
      · obtain ⟨c1, h, hc1, hb1, hcap, _⟩ := insert_absent hc hb hpos k v hk
        simp only [step, h, Outcome.state?, Option.some.injEq]
        exact ⟨fun _ => ⟨c1, rfl⟩, fun c2 h2 => h2 ▸ ⟨hc1, hb1, fun _ => hcap ▸ hpos⟩⟩
      · refine ⟨fun h => absurd h hpos, ?_⟩
        intro c1 h1
        exfalso
        have hlen := hc.length_eq
        have hfull : c._map.length = c._max_elems := by omega
        have hnil : c._ruq = [] := List.eq_nil_of_length_eq_zero (by omega)
        simp [step, insert, hk, hfull, popLru, listBack, hnil, Outcome.state?] at h1
  | update k v =>
    cases hk : mapFind c._map k with
    | some e =>
      obtain ⟨c1, h, hc1, hcap, hlen, _⟩ := update_present hc k v e hk
      simp only [step, h, Outcome.state?, Option.some.injEq]
      exact ⟨fun _ => ⟨c1, rfl⟩,
        fun c2 h2 => h2 ▸ ⟨hc1, by rw [hlen, hcap]; exact hb, fun hp => hcap ▸ hp⟩⟩
    | none =>
      have h : update c k v = .returned false c := by simp only [update, hk]
      simp only [step, h, Outcome.state?, Option.some.injEq]
      exact ⟨fun _ => ⟨c, rfl⟩, fun c1 h1 => h1 ▸ ⟨hc, hb, id⟩⟩
  | access k =>
    cases hk : mapFind c._map k with
    | some e =>
      obtain ⟨c1, h, hc1, hcap, hlen, _⟩ := access_present hc k e hk
      simp only [step, h, Outcome.state?, Option.some.injEq]
      exact ⟨fun _ => ⟨c1, rfl⟩,
        fun c2 h2 => h2 ▸ ⟨hc1, by rw [hlen, hcap]; exact hb, fun hp => hcap ▸ hp⟩⟩
    | none =>
      have h : access c k = .thrown .keyNotFound c := by simp only [access, hk]
      simp only [step, h, Outcome.state?, Option.some.injEq]
      exact ⟨fun _ => ⟨c, rfl⟩, fun c1 h1 => h1 ▸ ⟨hc, hb, id⟩⟩
  | resize n =>
    by_cases hn : 1 ≤ n
    · obtain ⟨c1, h, hc1, hcap, hb1, _⟩ := resize_valid hc n hn
      simp only [step, h, Outcome.state?, Option.some.injEq]
      exact ⟨fun _ => ⟨c1, rfl⟩, fun c2 h2 => h2 ▸ ⟨hc1, hb1, fun _ => hcap ▸ hn⟩⟩
    · have hn1 : n < 1 := by omega
      have h : resize c n = .thrown .cacheSizeNotPositive c := by simp only [resize, hn1, if_true]
      simp only [step, h, Outcome.state?, Option.some.injEq]
      exact ⟨fun _ => ⟨c, rfl⟩, fun c1 h1 => h1 ▸ ⟨hc, hb, id⟩⟩

theorem run_inv (ops : List (Op Key Value)) :
    ∀ c : SynchronizedLRUCacheMap Key Value, Consistent c → c._map.length ≤ c._max_elems →
    (1 ≤ c._max_elems → ∃ c1, run c ops = some c1 ∧ 1 ≤ c1._max_elems) ∧
    (∀ c1, run c ops = some c1 → Consistent c1 ∧ c1._map.length ≤ c1._max_elems) := by
  induction ops with
  | nil =>
    intro c hc hb
    refine ⟨fun hp => ⟨c, rfl, hp⟩, ?_⟩
    intro c1 h
    simp only [run, Option.some.injEq] at h
    exact h ▸ ⟨hc, hb⟩
  | cons o os ih =>
    intro c hc hb
    obtain ⟨htot, hpres⟩ := step_inv hc hb o
    constructor
    · intro hp
      obtain ⟨c1, h1⟩ := htot hp
      obtain ⟨hc1, hb1, hp1⟩ := hpres c1 h1
      obtain ⟨c2, h2, hp2⟩ := (ih c1 hc1 hb1).1 (hp1 hp)
      exact ⟨c2, by simp only [run, h1, h2], hp2⟩
    · intro c2 h
      cases h1 : step c o with
      | none => simp [run, h1] at h
      | some c1 =>
        simp only [run, h1] at h
        obtain ⟨hc1, hb1, _⟩ := hpres c1 h1
        exact (ih c1 hc1 hb1).2 c2 h

theorem Reachable.inv {c : SynchronizedLRUCacheMap Key Value} (h : Reachable c) :
    Consistent c ∧ c._map.length ≤ c._max_elems := by
  obtain ⟨cap, ops, hrun⟩ := h
  exact (run_inv ops (new cap) (consistent_new cap) (by simp [new])).2 c hrun

/-! ## Touch times -/

theorem insert_undefined_of_zero {c : SynchronizedLRUCacheMap Key Value} (hc : Consistent c)
    (hb : c._map.length ≤ c._max_elems) (hz : ¬ 1 ≤ c._max_elems)
    (k : Key) (v : Value) (hk : mapFind c._map k = none) :
    insert c k v = .undefined := by
  have hlen := hc.length_eq
  have hfull : c._map.length = c._max_elems := by omega
  have hnil : c._ruq = [] := List.eq_nil_of_length_eq_zero (by omega)
  simp [insert, hk, hfull, popLru, listBack, hnil]

/-- The three shapes of a call on a consistent object: it touches nothing and
keeps a front part of the queue; it touches a new key, put in front of a front
part of the queue; it touches a queued key, which moves to the front. -/
theorem step_shape {c : SynchronizedLRUCacheMap Key Value} (hc : Consistent c)
    (hb : c._map.length ≤ c._max_elems) (o : Op Key Value)
    (c1 : SynchronizedLRUCacheMap Key Value) (h1 : step c o = some c1) :
    (∃ n, touches c o = none ∧ cacheKeyState c1 = (cacheKeyState c).take n) ∨
    (∃ k n, touches c o = some k ∧ k ∉ cacheKeyState c ∧
      cacheKeyState c1 = k :: (cacheKeyState c).take n) ∨
    (∃ k, touches c o = some k ∧ k ∈ cacheKeyState c ∧
      cacheKeyState c1 = k :: (cacheKeyState c).filter (fun j => !decide (j = k))) := by
  have hall : cacheKeyState c = (cacheKeyState c).take (cacheKeyState c).length :=
    (List.take_length _).symm
  cases o with
  | insert k v =>
    cases hk : mapFind c._map k with
    | some e =>
      have h : insert c k v = .returned false c := by simp only [insert, hk]
      simp only [step, h, Outcome.state?, Option.some.injEq] at h1
      subst h1
      exact Or.inl ⟨_, by simp only [touches, h], hall⟩
    | none =>
      by_cases hpos : 1 ≤ c._max_elems
      · obtain ⟨c2, h, _, _, _, hkeys, _⟩ := insert_absent hc hb hpos k v hk
        simp only [step, h, Outcome.state?, Option.some.injEq] at h1
        subst h1
        have hk2 : k ∉ cacheKeyState c := fun hm => (hc.mem_keys_iff k).1 hm hk
        refine Or.inr (Or.inl ⟨k, if size c = c._max_elems then (cacheKeyState c).length - 1
          else (cacheKeyState c).length, by simp only [touches, h], hk2, ?_⟩)
        rw [hkeys]
        split
        · rw [List.dropLast_eq_take]
        · rw [← hall]
      · rw [step, insert_undefined_of_zero hc hb hpos k v hk] at h1
        simp [Outcome.state?] at h1
  | update k v =>
    cases hk : mapFind c._map k with
    | some e =>
      obtain ⟨c2, h, _, _, _, hkeys, _⟩ := update_present hc k v e hk
      simp only [step, h, Outcome.state?, Option.some.injEq] at h1
      subst h1
      have hk2 : k ∈ cacheKeyState c := (hc.mem_keys_iff k).2 (by rw [hk]; simp)
      exact Or.inr (Or.inr ⟨k, by simp only [touches, h], hk2, hkeys⟩)
    | none =>
      have h : update c k v = .returned false c := by simp only [update, hk]
      simp only [step, h, Outcome.state?, Option.some.injEq] at h1
      subst h1
      exact Or.inl ⟨_, by simp only [touches, h], hall⟩
  | access k =>
    cases hk : mapFind c._map k with
    | some e =>
      obtain ⟨c2, h, _, _, _, hkeys, _⟩ := access_present hc k e hk
      simp only [step, h, Outcome.state?, Option.some.injEq] at h1
      subst h1
      have hk2 : k ∈ cacheKeyState c := (hc.mem_keys_iff k).2 (by rw [hk]; simp)
      exact Or.inr (Or.inr ⟨k, by simp only [touches, h], hk2, hkeys⟩)
    | none =>
      have h : access c k = .thrown .keyNotFound c := by simp only [access, hk]
      simp only [step, h, Outcome.state?, Option.some.injEq] at h1
      subst h1
      exact Or.inl ⟨_, by simp only [touches, h], hall⟩
  | resize n =>
    by_cases hn : 1 ≤ n
    · obtain ⟨c2, h, _, _, _, hkeys, _⟩ := resize_valid hc n hn
      simp only [step, h, Outcome.state?, Option.some.injEq] at h1
      subst h1
      exact Or.inl ⟨n, rfl, hkeys⟩
    · have hn1 : n < 1 := by omega
      have h : resize c n = .thrown .cacheSizeNotPositive c := by simp only [resize, hn1, if_true]
      simp only [step, h, Outcome.state?, Option.some.injEq] at h1
      subst h1
      exact Or.inl ⟨_, rfl, hall⟩

theorem pairwise_promote (L L1 : List Key) (last : Key → Nat) (t : Nat) (k : Key)
    (hsub : L1.Sublist L) (hk : k ∉ L1)
    (hP : L.Pairwise (fun a b => last b < last a))
    (hle : ∀ a ∈ L, 1 ≤ last a ∧ last a ≤ t) :
    (k :: L1).Pairwise (fun a b =>
        (if b = k then t + 1 else last b) < (if a = k then t + 1 else last a)) ∧
    ∀ a ∈ k :: L1, 1 ≤ (if a = k then t + 1 else last a) ∧
      (if a = k then t + 1 else last a) ≤ t + 1 := by
  have hne : ∀ a ∈ L1, a ≠ k := fun a ha h => hk (h ▸ ha)
  constructor
  · refine List.pairwise_cons.2 ⟨?_, ?_⟩
    · intro b hb
      have := (hle b (hsub.subset hb)).2
      simp only [hne b hb, if_false, if_true]
      omega
    · refine (hP.sublist hsub).imp_of_mem ?_
      intro a b ha hb hab
      simp only [hne a ha, hne b hb, if_false]
      exact hab
  · intro a ha
    rcases List.mem_cons.1 ha with h | h
    · subst h
      simp only [if_true]
      omega
    · have := hle a (hsub.subset h)
      simp only [hne a h, if_false]
      omega

theorem stamp_ordered {c : SynchronizedLRUCacheMap Key Value} (hc : Consistent c)
    (hb : c._map.length ≤ c._max_elems) (last : Key → Nat) (t : Nat)
    (ho : LruOrdered c last t) (o : Op Key Value)
    (c1 : SynchronizedLRUCacheMap Key Value) (h1 : step c o = some c1) :
    LruOrdered c1 (stamp c last t o) (t + 1) := by
  obtain ⟨hP, hle⟩ := ho
  rcases step_shape hc hb o c1 h1 with ⟨n, ht, hkeys⟩ | ⟨k, n, ht, hk, hkeys⟩ | ⟨k, ht, hk, hkeys⟩
  · simp only [LruOrdered, stamp, ht, hkeys]
    refine ⟨hP.sublist (List.take_sublist _ _), fun a ha => ?_⟩
    have := hle a (List.mem_of_mem_take ha)
    omega
  · simp only [LruOrdered, stamp, ht, hkeys]
    exact pairwise_promote _ _ last t k (List.take_sublist _ _)
      (fun h => hk (List.mem_of_mem_take h)) hP hle
  · simp only [LruOrdered, stamp, ht, hkeys]
    refine pairwise_promote _ _ last t k (List.filter_sublist _) ?_ hP hle
    intro h
    have := (List.mem_filter.1 h).2
    simp at this

theorem evicted_older {c : SynchronizedLRUCacheMap Key Value} (hc : Consistent c)
    (hb : c._map.length ≤ c._max_elems) (last : Key → Nat)
    (hP : (cacheKeyState c).Pairwise (fun a b => last b < last a)) (o : Op Key Value)
    (c1 : SynchronizedLRUCacheMap Key Value) (h1 : step c o = some c1)
    (e : Key) (he : e ∈ cacheKeyState c) (he1 : e ∉ cacheKeyState c1)
    (k : Key) (hk : k ∈ cacheKeyState c) (hk1 : k ∈ cacheKeyState c1) :
    last e < last k := by
  have hsplit : ∀ n, e ∉ (cacheKeyState c).take n → k ∈ (cacheKeyState c).take n →
      last e < last k := by
    intro n hne hkn
    have hP1 := hP
    rw [← List.take_append_drop n (cacheKeyState c)] at hP1 he
    have hed : e ∈ (cacheKeyState c).drop n := by
      rcases List.mem_append.1 he with h | h
      · exact absurd h hne
      · exact h
    exact (List.pairwise_append.1 hP1).2.2 k hkn e hed
  rcases step_shape hc hb o c1 h1 with ⟨n, _, hkeys⟩ | ⟨j, n, _, hj, hkeys⟩ | ⟨j, _, hj, hkeys⟩
  · rw [hkeys] at he1 hk1
    exact hsplit n he1 hk1
  · rw [hkeys] at he1 hk1
    refine hsplit n (fun h => he1 (List.mem_cons_of_mem _ h)) ?_
    rcases List.mem_cons.1 hk1 with h | h
    · exact absurd (h ▸ hk) hj
    · exact h
  · exfalso
    apply he1
    rw [hkeys]
    by_cases hej : e = j
    · rw [hej]; exact List.mem_cons_self _ _
    · exact List.mem_cons_of_mem _ (List.mem_filter.2 ⟨he, by simp [hej]⟩)

theorem runTouch_spec (ops : List (Op Key Value)) :
    ∀ (c : SynchronizedLRUCacheMap Key Value) (last : Key → Nat) (t : Nat),
    Consistent c → c._map.length ≤ c._max_elems → 1 ≤ c._max_elems → LruOrdered c last t →
    ∃ c1 last1, runTouch c last t ops = some (c1, last1) ∧ run c ops = some c1 ∧
      Consistent c1 ∧ c1._map.length ≤ c1._max_elems ∧ LruOrdered c1 last1 (t + ops.length) := by
  induction ops with
  | nil =>
    intro c last t hc hb _ ho
    exact ⟨c, last, rfl, rfl, hc, hb, ho⟩
  | cons o os ih =>
    intro c last t hc hb hp ho
    obtain ⟨htot, hpres⟩ := step_inv hc hb o
    obtain ⟨c1, h1⟩ := htot hp
    obtain ⟨hc1, hb1, hp1⟩ := hpres c1 h1
    obtain ⟨c2, last2, hr, hrun, hc2, hb2, ho2⟩ :=
      ih c1 (stamp c last t o) (t + 1) hc1 hb1 (hp1 hp) (stamp_ordered hc hb last t ho o c1 h1)
    refine ⟨c2, last2, by simp only [runTouch, h1, hr], by simp only [run, h1, hrun],
      hc2, hb2, ?_⟩
    have : t + (o :: os).length = t + 1 + os.length := by simp only [List.length_cons]; omega
    rw [this]
    exact ho2

/-! ## The claims -/

/-- C1 (capacity bound): on a cache constructed with a positive capacity every
finite sequence of insert, update, access and resize calls, the failing ones
included, runs to completion, and after each of its calls (after the first `n`
calls, for every `n`) `size()` is at most the current capacity. -/
theorem capacity_bound (cap : Nat) (hcap : 1 ≤ cap) (ops : List (Op Key Value)) (n : Nat) :
    ∃ c : SynchronizedLRUCacheMap Key Value,
      run (new cap) (ops.take n) = some c ∧ size c ≤ c._max_elems := by
  have hinv := run_inv (ops.take n) (new cap : SynchronizedLRUCacheMap Key Value)
    (consistent_new cap) (by simp [new])
  obtain ⟨c, hrun, _⟩ := hinv.1 hcap
  exact ⟨c, hrun, (hinv.2 c hrun).2⟩

theorem capacity_bound_witness :
    1 ≤ 2 ∧ ∃ c : SynchronizedLRUCacheMap Nat Nat,
      run (new 2)
        ([Op.insert 1 10, .insert 2 20, .insert 3 30, .resize 0, .access 7, .resize 1].take 5)
        = some c ∧ size c ≤ c._max_elems :=
  ⟨by decide, capacity_bound 2 (by decide) _ 5⟩

/-- C2 (index and recency list agree): in every state reached from a freshly
constructed cache the list returned by `cacheKeyState()` has no duplicate key,
its keys are exactly the keys of the index `_map`, and its length is `size()`. -/
theorem index_ruq_consistent (c : SynchronizedLRUCacheMap Key Value) (h : Reachable c) :
    (cacheKeyState c).Nodup ∧
    (∀ k, k ∈ cacheKeyState c ↔ k ∈ c._map.map Prod.fst) ∧
    (cacheKeyState c).length = size c := by
  obtain ⟨hc, _⟩ := h.inv
  refine ⟨hc.ruqKeys_nodup, fun k => hc.keys_perm.mem_iff, ?_⟩
  simpa [cacheKeyState, size] using hc.length_eq

theorem index_ruq_consistent_witness :
    Reachable demoCache ∧
    ((cacheKeyState demoCache).Nodup ∧
    (∀ k, k ∈ cacheKeyState demoCache ↔ k ∈ demoCache._map.map Prod.fst) ∧
    (cacheKeyState demoCache).length = size demoCache) :=
  ⟨⟨2, demoOps, by decide⟩, index_ruq_consistent demoCache ⟨2, demoOps, by decide⟩⟩

/-- C3 (strict LRU order by touch time): on a cache constructed with a positive
capacity every sequence of calls runs to completion; with `last k` the number
of the last call that touched `k` (an insert or update returning true, an
access that returns), `cacheKeyState()` lists the present keys in strictly
decreasing order of `last`, each of them touched at some call of the sequence;
and whatever call comes next, a key it evicts was touched longer ago than
every key that stays. -/
theorem strict_lru_order (cap : Nat) (hcap : 1 ≤ cap) (ops : List (Op Key Value)) :
    ∃ (c : SynchronizedLRUCacheMap Key Value) (last : Key → Nat),
      run (new cap) ops = some c ∧
      runTouch (new cap) (fun _ => 0) 0 ops = some (c, last) ∧
      (cacheKeyState c).Pairwise (fun a b => last b < last a) ∧
      (∀ a ∈ cacheKeyState c, 1 ≤ last a ∧ last a ≤ ops.length) ∧
      ∀ (o : Op Key Value) (c1 : SynchronizedLRUCacheMap Key Value), step c o = some c1 →
        ∀ e ∈ cacheKeyState c, e ∉ cacheKeyState c1 →
        ∀ k ∈ cacheKeyState c, k ∈ cacheKeyState c1 → last e < last k := by
  have ho : LruOrdered (new cap : SynchronizedLRUCacheMap Key Value) (fun _ => 0) 0 := by
    simp [LruOrdered, new, cacheKeyState]
  obtain ⟨c, last, hr, hrun, hc, hb, hP, hle⟩ :=
    runTouch_spec ops (new cap : SynchronizedLRUCacheMap Key Value) (fun _ => 0) 0
      (consistent_new cap) (by simp [new]) hcap ho
  refine ⟨c, last, hrun, hr, hP, ?_, ?_⟩
  · intro a ha
    have := hle a ha
    omega
  · intro o c1 h1 e he he1 k hk hk1
    exact evicted_older hc hb last hP o c1 h1 e he he1 k hk hk1

theorem strict_lru_order_witness :
    1 ≤ 2 ∧ ∃ (c : SynchronizedLRUCacheMap Nat Nat) (last : Nat → Nat),
      run (new 2) demoOps = some c ∧
      runTouch (new 2) (fun _ => 0) 0 demoOps = some (c, last) ∧
      (cacheKeyState c).Pairwise (fun a b => last b < last a) ∧
      (∀ a ∈ cacheKeyState c, 1 ≤ last a ∧ last a ≤ demoOps.length) ∧
      ∀ (o : Op Nat Nat) (c1 : SynchronizedLRUCacheMap Nat Nat), step c o = some c1 →
        ∀ e ∈ cacheKeyState c, e ∉ cacheKeyState c1 →
        ∀ k ∈ cacheKeyState c, k ∈ cacheKeyState c1 → last e < last k :=
  ⟨by decide, strict_lru_order 2 (by decide) demoOps⟩

theorem has_eq_false_iff (c : SynchronizedLRUCacheMap Key Value) (k : Key) :
    has c k = false ↔ mapFind c._map k = none := by
  simp [has]

theorem has_eq_true_iff (c : SynchronizedLRUCacheMap Key Value) (k : Key) :
    has c k = true ↔ ∃ e, mapFind c._map k = some e := by
  simp [has, Option.isSome_iff_exists]

theorem filter_ne_eq (l : List Key) (k : Key) :
    l.filter (fun j => j ≠ k) = l.filter (fun j => !decide (j = k)) := by
  congr 1
  funext j
  simp

/-- C4 (insert of an absent key): in a reachable state with positive capacity,
for a key `k` that is not in the cache, `insert(k, v)` returns true and leaves
the capacity as it was; the key order becomes `k` followed by the previous
order, without its last key when the previous size equalled the capacity and
whole otherwise; `k` maps to `v`, every other key that is still there keeps its
value, and a key that is gone was the previous tail of a full cache. -/
theorem insert_absent_key (c : SynchronizedLRUCacheMap Key Value) (hr : Reachable c)
    (hpos : 1 ≤ c._max_elems) (k : Key) (v : Value) (hk : has c k = false) :
    ∃ c1, insert c k v = .returned true c1 ∧
      c1._max_elems = c._max_elems ∧
      cacheKeyState c1
        = k :: (if size c = c._max_elems then (cacheKeyState c).dropLast
                else cacheKeyState c) ∧
      valueOf c1 k = some v ∧
      (∀ j, j ≠ k → j ∈ cacheKeyState c1 → valueOf c1 j = valueOf c j) ∧
      (∀ j ∈ cacheKeyState c, j ∉ cacheKeyState c1 →
        size c = c._max_elems ∧ (cacheKeyState c).getLast? = some j) := by
  obtain ⟨hc, hb⟩ := hr.inv
  obtain ⟨c1, h, _, _, hcap, hkeys, hfk, hfj⟩ :=
    insert_absent hc hb hpos k v ((has_eq_false_iff c k).1 hk)
  refine ⟨c1, h, hcap, hkeys, by simp [valueOf, hfk], ?_, ?_⟩
  · intro j hj hm
    simp only [valueOf, hfj j hj hm]
  · intro j hj hj1
    rw [hkeys] at hj1
    by_cases hfull : size c = c._max_elems
    · refine ⟨hfull, ?_⟩
      simp only [hfull, if_true, List.mem_cons, not_or] at hj1
      cases hlast : (cacheKeyState c).getLast? with
      | none =>
        rw [List.getLast?_eq_none_iff] at hlast
        rw [hlast] at hj
        simp at hj
      | some a =>
        have happ := List.dropLast_append_getLast? a hlast
        rw [← happ] at hj
        rcases List.mem_append.1 hj with h1 | h1
        · exact absurd h1 hj1.2
        · rw [List.mem_singleton.1 h1]
    · simp only [hfull, if_false, List.mem_cons, not_or] at hj1
      exact absurd hj hj1.2

theorem insert_absent_key_witness :
    Reachable demoCache ∧ 1 ≤ demoCache._max_elems ∧ has demoCache 7 = false ∧
    ∃ c1, insert demoCache 7 70 = .returned true c1 ∧
      c1._max_elems = demoCache._max_elems ∧
      cacheKeyState c1
        = 7 :: (if size demoCache = demoCache._max_elems then (cacheKeyState demoCache).dropLast
                else cacheKeyState demoCache) ∧
      valueOf c1 7 = some 70 ∧
      (∀ j, j ≠ 7 → j ∈ cacheKeyState c1 → valueOf c1 j = valueOf demoCache j) ∧
      (∀ j ∈ cacheKeyState demoCache, j ∉ cacheKeyState c1 →
        size demoCache = demoCache._max_elems ∧ (cacheKeyState demoCache).getLast? = some j) :=
  ⟨⟨2, demoOps, by decide⟩, by decide, by decide,
   insert_absent_key demoCache ⟨2, demoOps, by decide⟩ (by decide) 7 70 (by decide)⟩

/-- C5 (insert is not upsert): in every state, for a key `k` that is present,
`insert(k, v)` returns false and leaves the object exactly as it was (capacity,
key order and every stored value, the one of `k` included). -/
theorem insert_not_upsert (c : SynchronizedLRUCacheMap Key Value) (k : Key) (v : Value)
    (hk : has c k = true) : insert c k v = .returned false c := by
  obtain ⟨e, he⟩ := (has_eq_true_iff c k).1 hk
  simp only [insert, he]

theorem insert_not_upsert_witness :
    has demoCache 1 = true ∧ insert demoCache 1 99 = .returned false demoCache :=
  ⟨by decide, insert_not_upsert demoCache 1 99 (by decide)⟩

/-- C6 (access of a present key): in a reachable state, for a key `k` that is
in the cache, `access(k)` returns the value stored for `k`; afterwards the key
order is `k` followed by the previous order without `k`, and the set of queued
keys, the membership test, the size, the capacity and the value of every key
are as before. -/
theorem access_present_key (c : SynchronizedLRUCacheMap Key Value) (hr : Reachable c)
    (k : Key) (hk : has c k = true) :
    ∃ v c1, valueOf c k = some v ∧ access c k = .returned v c1 ∧
      cacheKeyState c1 = k :: (cacheKeyState c).filter (fun j => j ≠ k) ∧
      (∀ j, j ∈ cacheKeyState c1 ↔ j ∈ cacheKeyState c) ∧
      (∀ j, has c1 j = has c j) ∧
      size c1 = size c ∧ c1._max_elems = c._max_elems ∧
      (∀ j, valueOf c1 j = valueOf c j) := by
  obtain ⟨hc, _⟩ := hr.inv
  obtain ⟨e, he⟩ := (has_eq_true_iff c k).1 hk
  obtain ⟨c1, h, hc1, hcap, hlen, hkeys, hf⟩ := access_present hc k e he
  have hval : ∀ j, valueOf c1 j = valueOf c j := by
    intro j
    simp only [valueOf, hf j]
    by_cases hj : k = j
    · subst hj; simp [he]
    · simp [hj]
  have hhas : ∀ j, has c1 j = has c j := by
    intro j
    simp only [has, hf j]
    by_cases hj : k = j
    · subst hj; simp [he]
    · simp [hj]
  refine ⟨e.1, c1, by simp [valueOf, he], h, by rw [hkeys, filter_ne_eq], ?_, hhas, hlen,
    hcap, hval⟩
  intro j
  rw [hc1.mem_keys_iff, hc.mem_keys_iff]
  have := hhas j
  simp only [has] at this
  rw [← Option.isSome_iff_ne_none, ← Option.isSome_iff_ne_none, this]

theorem access_present_key_witness :
    Reachable demoCache ∧ has demoCache 1 = true ∧
    ∃ v c1, valueOf demoCache 1 = some v ∧ access demoCache 1 = .returned v c1 ∧
      cacheKeyState c1 = 1 :: (cacheKeyState demoCache).filter (fun j => j ≠ 1) ∧
      (∀ j, j ∈ cacheKeyState c1 ↔ j ∈ cacheKeyState demoCache) ∧
      (∀ j, has c1 j = has demoCache j) ∧
      size c1 = size demoCache ∧ c1._max_elems = demoCache._max_elems ∧
      (∀ j, valueOf c1 j = valueOf demoCache j) :=
  ⟨⟨2, demoOps, by decide⟩, by decide,
   access_present_key demoCache ⟨2, demoOps, by decide⟩ 1 (by decide)⟩

/-- C7 (access of a missing key): in every state `access(k)` throws the
key-not-found error exactly when `k` is absent, and whenever it throws, the
error is that one and the object is left exactly as it was. -/
theorem access_missing_key (c : SynchronizedLRUCacheMap Key Value) (k : Key) :
    ((∃ c1, access c k = .thrown .keyNotFound c1) ↔ has c k = false) ∧
    (∀ err c1, access c k = .thrown err c1 → err = .keyNotFound ∧ c1 = c) := by
  cases he : mapFind c._map k with
  | none =>
    have h : access c k = .thrown .keyNotFound c := by simp only [access, he]
    refine ⟨⟨fun _ => (has_eq_false_iff c k).2 he, fun _ => ⟨c, h⟩⟩, ?_⟩
    intro err c1 h1
    rw [h] at h1
    injection h1 with h2 h3
    exact ⟨h2.symm, h3.symm⟩
  | some e =>
    have hh : has c k = true := (has_eq_true_iff c k).2 ⟨e, he⟩
    have hne : ∀ err c1, access c k ≠ .thrown err c1 := by
      intro err c1
      simp only [access, he]
      cases listErase c._ruq e.2 <;> simp
    refine ⟨⟨fun ⟨c1, h1⟩ => absurd h1 (hne _ _), fun h1 => ?_⟩, ?_⟩
    · rw [hh] at h1; exact absurd h1 (by decide)
    · intro err c1 h1
      exact absurd h1 (hne _ _)

/-- C8 (update of a present key): in a reachable state, for a key `k` that is
in the cache, `update(k, v)` returns true; afterwards `k` maps to `v`, the key
order is `k` followed by the previous order without `k`, the size, the
capacity, the set of queued keys and the membership test are as before
(nothing is evicted), and every other key keeps its value. -/
theorem update_present_key (c : SynchronizedLRUCacheMap Key Value) (hr : Reachable c)
    (k : Key) (v : Value) (hk : has c k = true) :
    ∃ c1, update c k v = .returned true c1 ∧
      valueOf c1 k = some v ∧
      cacheKeyState c1 = k :: (cacheKeyState c).filter (fun j => j ≠ k) ∧
      size c1 = size c ∧ c1._max_elems = c._max_elems ∧
      (∀ j, j ∈ cacheKeyState c1 ↔ j ∈ cacheKeyState c) ∧
      (∀ j, has c1 j = has c j) ∧
      (∀ j, j ≠ k → valueOf c1 j = valueOf c j) := by
  obtain ⟨hc, _⟩ := hr.inv
  obtain ⟨e, he⟩ := (has_eq_true_iff c k).1 hk
  obtain ⟨c1, h, hc1, hcap, hlen, hkeys, hf⟩ := update_present hc k v e he
  have hhas : ∀ j, has c1 j = has c j := by
    intro j
    simp only [has, hf j]
    by_cases hj : k = j
    · subst hj; simp [he]
    · simp [hj]
  refine ⟨c1, h, by simp [valueOf, hf k], by rw [hkeys, filter_ne_eq], hlen, hcap, ?_, hhas, ?_⟩
  · intro j
    rw [hc1.mem_keys_iff, hc.mem_keys_iff]
    have := hhas j
    simp only [has] at this
    rw [← Option.isSome_iff_ne_none, ← Option.isSome_iff_ne_none, this]
  · intro j hj
    have hj1 : ¬ k = j := fun h => hj h.symm
    simp only [valueOf, hf j, hj1, if_false]

theorem update_present_key_witness :
    Reachable demoCache ∧ has demoCache 1 = true ∧
    ∃ c1, update demoCache 1 11 = .returned true c1 ∧
      valueOf c1 1 = some 11 ∧
      cacheKeyState c1 = 1 :: (cacheKeyState demoCache).filter (fun j => j ≠ 1) ∧
      size c1 = size demoCache ∧ c1._max_elems = demoCache._max_elems ∧
      (∀ j, j ∈ cacheKeyState c1 ↔ j ∈ cacheKeyState demoCache) ∧
      (∀ j, has c1 j = has demoCache j) ∧
      (∀ j, j ≠ 1 → valueOf c1 j = valueOf demoCache j) :=
  ⟨⟨2, demoOps, by decide⟩, by decide,
   update_present_key demoCache ⟨2, demoOps, by decide⟩ 1 11 (by decide)⟩

/-- C9 (update of an absent key): in every state, for a key `k` that is not in
the cache, `update(k, v)` returns false, throws nothing, and leaves the object
exactly as it was, so `k` is still absent. -/
theorem update_absent_key (c : SynchronizedLRUCacheMap Key Value) (k : Key) (v : Value)
    (hk : has c k = false) :
    update c k v = .returned false c ∧
    ∀ c1, (update c k v).state? = some c1 → c1 = c ∧ has c1 k = false := by
  have he := (has_eq_false_iff c k).1 hk
  have h : update c k v = .returned false c := by simp only [update, he]
  refine ⟨h, ?_⟩
  intro c1 h1
  rw [h] at h1
  simp only [Outcome.state?, Option.some.injEq] at h1
  subst h1
  exact ⟨rfl, hk⟩

theorem update_absent_key_witness :
    has demoCache 2 = false ∧
    (update demoCache 2 22 = .returned false demoCache ∧
     ∀ c1, (update demoCache 2 22).state? = some c1 → c1 = demoCache ∧ has c1 2 = false) :=
  ⟨by decide, update_absent_key demoCache 2 22 (by decide)⟩

/-- C10 (resize with an invalid capacity): in every state `resize(n)` throws
the cache-size error exactly when `n < 1`, and whenever it throws, the error
is that one and the object (capacity, size, key order, values) is left exactly
as it was. -/
theorem resize_invalid (c : SynchronizedLRUCacheMap Key Value) (n : Nat) :
    ((∃ c1, resize c n = .thrown .cacheSizeNotPositive c1) ↔ n < 1) ∧
    (∀ err c1, resize c n = .thrown err c1 → err = .cacheSizeNotPositive ∧ c1 = c) := by
  by_cases hn : n < 1
  · have h : resize c n = .thrown .cacheSizeNotPositive c := by simp only [resize, hn, if_true]
    refine ⟨⟨fun _ => hn, fun _ => ⟨c, h⟩⟩, ?_⟩
    intro err c1 h1
    rw [h] at h1
    injection h1 with h2 h3
    exact ⟨h2.symm, h3.symm⟩
  · have hne : ∀ err c1, resize c n ≠ .thrown err c1 := by
      intro err c1
      simp only [resize, hn, if_false]
      cases resizeLoop { c with _max_elems := n } <;> simp
    exact ⟨⟨fun ⟨c1, h1⟩ => absurd h1 (hne _ _), fun h1 => absurd h1 hn⟩,
      fun err c1 h1 => absurd h1 (hne _ _)⟩

theorem Consistent.has_iff {c : SynchronizedLRUCacheMap Key Value} (hc : Consistent c)
    (k : Key) : has c k = true ↔ k ∈ cacheKeyState c := by
  rw [hc.mem_keys_iff, has, Option.isSome_iff_ne_none]

theorem Consistent.has_false_iff {c : SynchronizedLRUCacheMap Key Value} (hc : Consistent c)
    (k : Key) : has c k = false ↔ k ∉ cacheKeyState c := by
  rw [← hc.has_iff]; simp

omit [DecidableEq Key] in
theorem take_min_length (l : List Key) (n : Nat) :
    l.take (min l.length n) = l.take n := by
  rcases Nat.le_total l.length n with h | h
  · rw [Nat.min_eq_left h, List.take_of_length_le (Nat.le_refl _), List.take_of_length_le h]
  · rw [Nat.min_eq_right h]

omit [DecidableEq Key] in
theorem drop_min_length (l : List Key) (n : Nat) :
    l.drop (min l.length n) = l.drop n := by
  rcases Nat.le_total l.length n with h | h
  · rw [Nat.min_eq_left h, List.drop_of_length_le (Nat.le_refl _), List.drop_of_length_le h]
  · rw [Nat.min_eq_right h]

omit [DecidableEq Key] in
theorem mem_drop_iff_of_nodup (l : List Key) (hn : l.Nodup) (m : Nat) (j : Key) :
    j ∈ l.drop m ↔ j ∈ l ∧ j ∉ l.take m := by
  have hn1 := hn
  rw [← List.take_append_drop m l] at hn1
  have hdis := (List.nodup_append.1 hn1).2.2
  constructor
  · intro h
    exact ⟨List.mem_of_mem_drop h, fun h1 => hdis h1 h⟩
  · rintro ⟨h, h1⟩
    rw [← List.take_append_drop m l] at h
    rcases List.mem_append.1 h with h2 | h2
    · exact absurd h2 h1
    · exact h2

theorem Consistent.size_eq {c : SynchronizedLRUCacheMap Key Value} (hc : Consistent c) :
    (cacheKeyState c).length = size c := by
  simpa [cacheKeyState, size] using hc.length_eq

theorem insert_eval_absent (c : SynchronizedLRUCacheMap Key Value) (k : Key) (v : Value)
    (hk : mapFind c._map k = none) (hlt : c._map.length ≠ c._max_elems) :
    insert c k v = .returned true
      { _max_elems := c._max_elems, _map := mapAssign c._map k (v, c.fresh),
        _ruq := (c.fresh, k) :: c._ruq, fresh := c.fresh + 1 } := by
  simp only [insert, hk, hlt, if_false]
  rfl

/-- The state after `insert(a, _)`, `insert(b, _)`, `insert(c, _)` of three
distinct keys into a fresh cache of capacity 3. -/
theorem run_three_inserts (a b d : Key) (va vb vd : Value)
    (hab : a ≠ b) (had : a ≠ d) (hbd : b ≠ d) :
    run (new 3 : SynchronizedLRUCacheMap Key Value)
        [.insert a va, .insert b vb, .insert d vd]
      = some { _max_elems := 3, _map := [(a, (va, 0)), (b, (vb, 1)), (d, (vd, 2))],
               _ruq := [(2, d), (1, b), (0, a)], fresh := 3 } := by
  have hba : ¬ b = a := fun h => hab h.symm
  have hda : ¬ d = a := fun h => had h.symm
  have hdb : ¬ d = b := fun h => hbd h.symm
  simp [run, step, insert, new, mapFind, mapAssign, pushFront, ruqBegin, Outcome.state?,
    hab, had, hbd, hba, hda, hdb]

theorem run_append (ops1 ops2 : List (Op Key Value)) :
    ∀ c : SynchronizedLRUCacheMap Key Value,
      run c (ops1 ++ ops2) = (run c ops1).bind (fun c1 => run c1 ops2) := by
  induction ops1 with
  | nil => intro c; rfl
  | cons o os ih =>
    intro c
    cases h : step c o with
    | none => simp [run, h]
    | some c1 => simp [run, h, ih]

/-- C11 (resize with a valid capacity evicts LRU-first): in a reachable state,
for `n >= 1`, `resize(n)` returns, sets the capacity to `n` and leaves as key
order the first `min size n` keys of the previous order, each with its
previous value; the keys that are removed are exactly the remaining, last keys
of the previous order.  In particular three distinct keys inserted in the order
`a`, `b`, `d` into a cache of capacity 3 and resized to 1 leave only `d`. -/
theorem resize_valid_lru_first (c : SynchronizedLRUCacheMap Key Value) (hr : Reachable c)
    (n : Nat) (hn : 1 ≤ n) :
    (∃ c1, resize c n = .returned () c1 ∧ c1._max_elems = n ∧
      cacheKeyState c1 = (cacheKeyState c).take (min (size c) n) ∧
      size c1 = min (size c) n ∧
      (∀ j ∈ cacheKeyState c1, valueOf c1 j = valueOf c j) ∧
      (∀ j, (has c j = true ∧ has c1 j = false)
        ↔ j ∈ (cacheKeyState c).drop (min (size c) n))) ∧
    (∀ (a b d : Key) (va vb vd : Value), a ≠ b → a ≠ d → b ≠ d →
      ∃ c3, run (new 3 : SynchronizedLRUCacheMap Key Value)
          [.insert a va, .insert b vb, .insert d vd, .resize 1] = some c3 ∧
        cacheKeyState c3 = [d] ∧ valueOf c3 d = some vd ∧ size c3 = 1) := by
  constructor
  · obtain ⟨hc, _⟩ := hr.inv
    obtain ⟨c1, h, hc1, hcap, _, hkeys, hfind⟩ := resize_valid hc n hn
    have htake : (cacheKeyState c).take (min (size c) n) = (cacheKeyState c).take n := by
      rw [← hc.size_eq, take_min_length]
    have hdrop : (cacheKeyState c).drop (min (size c) n) = (cacheKeyState c).drop n := by
      rw [← hc.size_eq, drop_min_length]
    refine ⟨c1, h, hcap, by rw [htake]; exact hkeys, ?_, ?_, ?_⟩
    · rw [← hc1.size_eq, hkeys, List.length_take, hc.size_eq, Nat.min_comm]
    · intro j hj
      simp only [valueOf, hfind j hj]
    · intro j
      have hnd : (cacheKeyState c).Nodup := hc.ruqKeys_nodup
      rw [hdrop, mem_drop_iff_of_nodup _ hnd, hc.has_iff, hc1.has_false_iff, hkeys]
  · intro a b d va vb vd hab had hbd
    have h3 := run_three_inserts a b d va vb vd hab had hbd
    have hr3 : Reachable (⟨3, [(a, (va, 0)), (b, (vb, 1)), (d, (vd, 2))],
        [(2, d), (1, b), (0, a)], 3⟩ : SynchronizedLRUCacheMap Key Value) :=
      ⟨3, _, h3⟩
    obtain ⟨hc, _⟩ := hr3.inv
    obtain ⟨c1, h, hc1, _, _, hkeys, hfind⟩ := resize_valid hc 1 (Nat.le_refl 1)
    have hk1 : cacheKeyState c1 = [d] := by
      rw [hkeys]; rfl
    refine ⟨c1, ?_, hk1, ?_, ?_⟩
    · have := run_append [Op.insert a va, .insert b vb, .insert d vd] [.resize 1]
        (new 3 : SynchronizedLRUCacheMap Key Value)
      simp only [List.cons_append, List.nil_append] at this
      rw [this, h3]
      simp [run, step, h, Outcome.state?]
    · have hba : ¬ a = d := had
      have hbd1 : ¬ b = d := hbd
      rw [valueOf, hfind d (by rw [hk1]; exact List.mem_singleton_self _)]
      simp [mapFind, hba, hbd1]
    · rw [← hc1.size_eq, hk1]; rfl

theorem resize_valid_lru_first_witness :
    Reachable demoCache ∧ 1 ≤ 1 ∧
    ((∃ c1, resize demoCache 1 = .returned () c1 ∧ c1._max_elems = 1 ∧
      cacheKeyState c1 = (cacheKeyState demoCache).take (min (size demoCache) 1) ∧
      size c1 = min (size demoCache) 1 ∧
      (∀ j ∈ cacheKeyState c1, valueOf c1 j = valueOf demoCache j) ∧
      (∀ j, (has demoCache j = true ∧ has c1 j = false)
        ↔ j ∈ (cacheKeyState demoCache).drop (min (size demoCache) 1))) ∧
    (∀ (a b d : Nat) (va vb vd : Nat), a ≠ b → a ≠ d → b ≠ d →
      ∃ c3, run (new 3 : SynchronizedLRUCacheMap Nat Nat)
          [.insert a va, .insert b vb, .insert d vd, .resize 1] = some c3 ∧
        cacheKeyState c3 = [d] ∧ valueOf c3 d = some vd ∧ size c3 = 1)) :=
  ⟨⟨2, demoOps, by decide⟩, by decide,
   resize_valid_lru_first demoCache ⟨2, demoOps, by decide⟩ 1 (by decide)⟩

/-- C12 (growing the capacity never evicts): in a state reached from a cache
constructed with a positive capacity, for `n` at least the current capacity,
`resize(n)` returns and changes nothing but the capacity, which becomes `n`:
key order, membership and every value are as before. -/
theorem resize_grow_never_evicts (cap : Nat) (hcap : 1 ≤ cap) (ops : List (Op Key Value))
    (c : SynchronizedLRUCacheMap Key Value) (hrun : run (new cap) ops = some c)
    (n : Nat) (hn : c._max_elems ≤ n) :
    ∃ c1, resize c n = .returned () c1 ∧
      c1 = { c with _max_elems := n } ∧ c1._max_elems = n ∧
      cacheKeyState c1 = cacheKeyState c ∧ size c1 = size c ∧
      (∀ j, has c1 j = has c j) ∧ (∀ j, valueOf c1 j = valueOf c j) := by
  have hinv := run_inv ops (new cap : SynchronizedLRUCacheMap Key Value)
    (consistent_new cap) (by simp [new])
  obtain ⟨c0, hrun0, hpos⟩ := hinv.1 hcap
  rw [hrun] at hrun0
  simp only [Option.some.injEq] at hrun0
  subst hrun0
  obtain ⟨_, hb⟩ := hinv.2 c hrun
  have hn1 : ¬ n < 1 := by omega
  have hle : ¬ ({ c with _max_elems := n } : SynchronizedLRUCacheMap Key Value)._map.length
      > ({ c with _max_elems := n } : SynchronizedLRUCacheMap Key Value)._max_elems := by
    show ¬ c._map.length > n
    omega
  refine ⟨{ c with _max_elems := n }, ?_, rfl, rfl, rfl, rfl, fun _ => rfl, fun _ => rfl⟩
  simp only [resize, hn1, if_false]
  rw [resizeLoop_eq, if_neg hle]

theorem resize_grow_never_evicts_witness :
    1 ≤ 2 ∧ run (new 2) demoOps = some demoCache ∧ demoCache._max_elems ≤ 5 ∧
    ∃ c1, resize demoCache 5 = .returned () c1 ∧
      c1 = { demoCache with _max_elems := 5 } ∧ c1._max_elems = 5 ∧
      cacheKeyState c1 = cacheKeyState demoCache ∧ size c1 = size demoCache ∧
      (∀ j, has c1 j = has demoCache j) ∧ (∀ j, valueOf c1 j = valueOf demoCache j) :=
  ⟨by decide, by decide, by decide,
   resize_grow_never_evicts 2 (by decide) demoOps demoCache (by decide) 5 (by decide)⟩

omit [DecidableEq Key] in
theorem take_append_take (A B : List Key) (n : Nat) :
    (A ++ B.take n).take n = (A ++ B).take n := by
  rw [List.take_append_eq_append_take, List.take_append_eq_append_take, List.take_take]
  congr 2
  omega

omit [DecidableEq Key] in
theorem take_cons_of_le (k : Key) (L : List Key) (cap : Nat) (hpos : 1 ≤ cap)
    (hle : L.length ≤ cap) :
    k :: (if L.length = cap then L.dropLast else L) = (k :: L).take cap := by
  obtain ⟨m, rfl⟩ : ∃ m, cap = m + 1 := ⟨cap - 1, by omega⟩
  rw [List.take_succ_cons]
  congr 1
  split
  · next h => rw [List.dropLast_eq_take, h]; rfl
  · next h => rw [List.take_of_length_le]; omega

theorem insertAll_spec (kvs : List (Key × Value)) :
    ∀ c : SynchronizedLRUCacheMap Key Value, Consistent c → c._map.length ≤ c._max_elems →
    1 ≤ c._max_elems → (kvs.map Prod.fst).Nodup → (∀ p ∈ kvs, p.1 ∉ cacheKeyState c) →
    ∃ c1, insertAll c kvs = some (List.replicate kvs.length true, c1) ∧ Consistent c1 ∧
      c1._max_elems = c._max_elems ∧
      cacheKeyState c1 = ((kvs.map Prod.fst).reverse ++ cacheKeyState c).take c._max_elems := by
  induction kvs with
  | nil =>
    intro c hc hb _ _ _
    refine ⟨c, rfl, hc, rfl, ?_⟩
    simp only [List.map_nil, List.reverse_nil, List.nil_append]
    rw [List.take_of_length_le]
    rw [hc.size_eq]; exact hb
  | cons p r ih =>
    intro c hc hb hpos hnd habs
    obtain ⟨k, v⟩ := p
    simp only [List.map_cons, List.nodup_cons] at hnd
    have hk : mapFind c._map k = none := by
      have := habs (k, v) (List.mem_cons_self _ _)
      rw [hc.mem_keys_iff] at this
      simpa using this
    obtain ⟨c1, h, hc1, hb1, hcap, hkeys, _, _⟩ := insert_absent hc hb hpos k v hk
    have hkeys1 : cacheKeyState c1 = (k :: cacheKeyState c).take c._max_elems := by
      rw [hkeys, ← take_cons_of_le k (cacheKeyState c) c._max_elems hpos
        (by rw [hc.size_eq]; exact hb), hc.size_eq]
    have habs1 : ∀ q ∈ r, q.1 ∉ cacheKeyState c1 := by
      intro q hq hm
      rw [hkeys1] at hm
      rcases List.mem_cons.1 (List.mem_of_mem_take hm) with h1 | h1
      · exact hnd.1 (h1 ▸ List.mem_map_of_mem Prod.fst hq)
      · exact habs q (List.mem_cons_of_mem _ hq) h1
    obtain ⟨c2, h2, hc2, hcap2, hkeys2⟩ := ih c1 hc1 hb1 (hcap ▸ hpos) hnd.2 habs1
    refine ⟨c2, ?_, hc2, hcap2.trans hcap, ?_⟩
    · simp only [insertAll, h, h2, Option.map_some', List.length_cons, List.replicate_succ]
    · rw [hkeys2, hcap, hkeys1, take_append_take]
      simp only [List.map_cons, List.reverse_cons, List.append_assoc, List.singleton_append]

/-- C13 (LRU eviction order): for a capacity `C >= 1` and `C + 1` pairs with
pairwise distinct keys, inserted in order into a freshly constructed cache of
capacity `C` with nothing in between, every `insert` returns true, and
afterwards `has` is false for the first key and true for each of the other `C`
keys, and `size()` is `C`. -/
theorem lru_eviction_order (C : Nat) (hC : 1 ≤ C) (kvs : List (Key × Value))
    (hlen : kvs.length = C + 1) (hnd : (kvs.map Prod.fst).Nodup) :
    ∃ c, insertAll (new C : SynchronizedLRUCacheMap Key Value) kvs
        = some (List.replicate (C + 1) true, c) ∧
      (∀ p, kvs.head? = some p → has c p.1 = false) ∧
      (∀ p ∈ kvs.tail, has c p.1 = true) ∧
      size c = C := by
  obtain ⟨c, h, hc, _, hkeys⟩ := insertAll_spec kvs
    (new C : SynchronizedLRUCacheMap Key Value) (consistent_new C) (by simp [new]) hC hnd
    (by simp [new, cacheKeyState])
  cases kvs with
  | nil => simp at hlen
  | cons p t =>
    simp only [List.length_cons, Nat.add_right_cancel_iff] at hlen
    simp only [List.map_cons, List.nodup_cons] at hnd
    have hk : cacheKeyState c = (t.map Prod.fst).reverse := by
      rw [hkeys]
      simp only [new, cacheKeyState, List.map_nil, List.append_nil, List.map_cons,
        List.reverse_cons]
      rw [List.take_append_of_le_length (by simp [hlen]), List.take_of_length_le (by simp [hlen])]
    refine ⟨c, by rw [h, List.length_cons, hlen], ?_, ?_, ?_⟩
    · intro q hq
      simp only [List.head?_cons, Option.some.injEq] at hq
      subst hq
      rw [hc.has_false_iff, hk, List.mem_reverse]
      exact hnd.1
    · intro q hq
      rw [hc.has_iff, hk, List.mem_reverse]
      exact List.mem_map_of_mem Prod.fst hq
    · rw [← hc.size_eq, hk]
      simp [hlen]

theorem lru_eviction_order_witness :
    1 ≤ 2 ∧ [(1, 10), (2, 20), (3, 30)].length = 2 + 1 ∧
    (([(1, 10), (2, 20), (3, 30)] : List (Nat × Nat)).map Prod.fst).Nodup ∧
    ∃ c, insertAll (new 2 : SynchronizedLRUCacheMap Nat Nat) [(1, 10), (2, 20), (3, 30)]
        = some (List.replicate (2 + 1) true, c) ∧
      (∀ p, ([(1, 10), (2, 20), (3, 30)] : List (Nat × Nat)).head? = some p
        → has c p.1 = false) ∧
      (∀ p ∈ ([(1, 10), (2, 20), (3, 30)] : List (Nat × Nat)).tail, has c p.1 = true) ∧
      size c = 2 :=
  ⟨by decide, by decide, by decide,
   lru_eviction_order 2 (by decide) [(1, 10), (2, 20), (3, 30)] (by decide) (by decide)⟩

omit [DecidableEq Key] in
theorem mem_dropLast_of_ne_last (L : List Key) (hn : L.Nodup) (e : Key)
    (he : L.getLast? = some e) (j : Key) :
    j ∈ L.dropLast ↔ j ∈ L ∧ j ≠ e := by
  have happ := List.dropLast_append_getLast? e he
  have hn1 := hn
  rw [← happ] at hn1
  have hdis := (List.nodup_append.1 hn1).2.2
  constructor
  · intro h
    exact ⟨List.mem_of_mem_dropLast h, fun h1 => hdis h (h1 ▸ List.mem_singleton_self _)⟩
  · rintro ⟨h, h1⟩
    rw [← happ] at h
    rcases List.mem_append.1 h with h2 | h2
    · exact h2
    · exact absurd (List.mem_singleton.1 h2) h1

/-- The state after three distinct keys are inserted into a fresh cache of
capacity 3, the first is accessed and a fourth, new key is inserted. -/
theorem run_access_promotes (a b d e : Key) (va vb vd ve : Value)
    (hab : a ≠ b) (had : a ≠ d) (hae : a ≠ e) (hbd : b ≠ d) (hbe : b ≠ e) (hde : d ≠ e) :
    run (new 3 : SynchronizedLRUCacheMap Key Value)
        [.insert a va, .insert b vb, .insert d vd, .access a, .insert e ve]
      = some { _max_elems := 3, _map := [(a, (va, 3)), (d, (vd, 2)), (e, (ve, 4))],
               _ruq := [(4, e), (3, a), (2, d)], fresh := 5 } := by
  have hba : ¬ b = a := fun h => hab h.symm
  have hda : ¬ d = a := fun h => had h.symm
  have hea : ¬ e = a := fun h => hae h.symm
  have hdb : ¬ d = b := fun h => hbd h.symm
  have heb : ¬ e = b := fun h => hbe h.symm
  have hed : ¬ e = d := fun h => hde h.symm
  simp [run, step, insert, access, new, mapFind, mapAssign, mapErase, pushFront, ruqBegin,
    popLru, listBack, listPopBack, listErase, Outcome.state?,
    hab, had, hae, hbd, hbe, hde, hba, hda, hea, hdb, heb, hed]

/-- C14 (access promotes): in a reachable state in which the cache is full and
the capacity is at least 2, for a present key `k` and an absent key `d`,
`access(k)` followed by `insert(d, v)` keeps `k` and evicts exactly one key:
the tail of the order left by the access, which is the least recently used key
other than `k`.  In particular: insert `a`, `b`, `d` into a cache of capacity
3, access `a`, insert `e`; then `b` is evicted, not `a`, and the order is
`e`, `a`, `d`. -/
theorem access_promotes (c : SynchronizedLRUCacheMap Key Value) (hr : Reachable c)
    (hfull : size c = c._max_elems) (hcap : 2 ≤ c._max_elems)
    (k : Key) (hk : has c k = true) (d : Key) (v : Value) (hd : has c d = false) :
    (∃ v0 c1 c2 e, access c k = .returned v0 c1 ∧ insert c1 d v = .returned true c2 ∧
      has c2 k = true ∧
      (cacheKeyState c1).getLast? = some e ∧
      ((cacheKeyState c).filter (fun j => j ≠ k)).getLast? = some e ∧
      e ≠ k ∧ has c e = true ∧ has c2 e = false ∧
      (∀ j, has c j = true → j ≠ e → has c2 j = true) ∧
      cacheKeyState c2 = d :: (cacheKeyState c1).dropLast) ∧
    (∀ (a b d e : Key) (va vb vd ve : Value),
      a ≠ b → a ≠ d → a ≠ e → b ≠ d → b ≠ e → d ≠ e →
      ∃ c5, run (new 3 : SynchronizedLRUCacheMap Key Value)
          [.insert a va, .insert b vb, .insert d vd, .access a, .insert e ve] = some c5 ∧
        cacheKeyState c5 = [e, a, d] ∧ has c5 b = false ∧ has c5 a = true) := by
  constructor
  · obtain ⟨hc, hb⟩ := hr.inv
    obtain ⟨e0, he0⟩ := (has_eq_true_iff c k).1 hk
    obtain ⟨c1, h1, hc1, hcap1, hlen1, hkeys1, hf1⟩ := access_present hc k e0 he0
    have hkd : ¬ k = d := by
      intro h
      rw [h, hd] at hk
      exact absurd hk (by decide)
    have hd1 : mapFind c1._map d = none := by
      rw [hf1, if_neg hkd]
      exact (has_eq_false_iff c d).1 hd
    have hsz1 : size c1 = c1._max_elems := by
      show c1._map.length = c1._max_elems
      rw [hlen1, hcap1]; exact hfull
    obtain ⟨c2, h2, hc2, _, _, hkeys2, _, _⟩ :=
      insert_absent hc1 (by rw [hlen1, hcap1]; exact hb) (by rw [hcap1]; omega) d v hd1
    rw [if_pos hsz1] at hkeys2
    have hnd1 : (cacheKeyState c1).Nodup := hc1.ruqKeys_nodup
    have hlenF : 2 ≤ (cacheKeyState c1).length := by
      rw [hc1.size_eq, hsz1, hcap1]; exact hcap
    have hhas1 : ∀ j, has c1 j = has c j := by
      intro j
      simp only [has, hf1 j]
      by_cases hj : k = j
      · subst hj; simp [he0]
      · simp [hj]
    cases hF : (cacheKeyState c).filter (fun j => !decide (j = k)) with
    | nil =>
      rw [hkeys1, hF] at hlenF
      simp at hlenF
    | cons x F =>
      obtain ⟨e, he⟩ : ∃ e, (x :: F).getLast? = some e :=
        ⟨(x :: F).getLast (by simp), List.getLast?_eq_getLast _ _⟩
      have hlast1 : (cacheKeyState c1).getLast? = some e := by
        rw [hkeys1, hF, List.getLast?_cons_cons]; exact he
      have hemem : e ∈ (cacheKeyState c).filter (fun j => !decide (j = k)) := by
        rw [hF]; exact List.mem_of_getLast?_eq_some he
      have hek : e ≠ k := by
        have := (List.mem_filter.1 hemem).2
        simpa using this
      have hec : e ∈ cacheKeyState c := (List.mem_filter.1 hemem).1
      have hmem2 : ∀ j, j ∈ cacheKeyState c2 ↔ j = d ∨ (j ∈ cacheKeyState c1 ∧ j ≠ e) := by
        intro j
        rw [hkeys2, List.mem_cons, mem_dropLast_of_ne_last _ hnd1 e hlast1]
      have hed : e ≠ d := by
        intro h
        rw [h] at hec
        exact (hc.has_false_iff d).1 hd hec
      refine ⟨e0.1, c1, c2, e, h1, h2, ?_, hlast1, ?_, hek, (hc.has_iff e).2 hec, ?_, ?_, hkeys2⟩
      · rw [hc2.has_iff, hmem2]
        refine Or.inr ⟨?_, fun h => hek h.symm⟩
        rw [hkeys1]; exact List.mem_cons_self _ _
      · rw [filter_ne_eq, hF]; exact he
      · rw [hc2.has_false_iff, hmem2]
        rintro (h | ⟨_, h⟩)
        · exact hed h
        · exact h rfl
      · intro j hj hje
        rw [hc2.has_iff, hmem2]
        refine Or.inr ⟨?_, hje⟩
        rw [← hc1.has_iff, hhas1]; exact hj
  · intro a b d e va vb vd ve hab had hae hbd hbe hde
    refine ⟨_, run_access_promotes a b d e va vb vd ve hab had hae hbd hbe hde, rfl, ?_, ?_⟩
    · have hba : ¬ a = b := hab
      have hdb : ¬ d = b := fun h => hbd h.symm
      have heb : ¬ e = b := fun h => hbe h.symm
      simp [has, mapFind, hba, hdb, heb]
    · simp [has, mapFind]

theorem access_promotes_witness :
    Reachable demoCache ∧ size demoCache = demoCache._max_elems ∧ 2 ≤ demoCache._max_elems ∧
    has demoCache 1 = true ∧ has demoCache 7 = false ∧
    ((∃ v0 c1 c2 e, access demoCache 1 = .returned v0 c1 ∧ insert c1 7 70 = .returned true c2 ∧
      has c2 1 = true ∧
      (cacheKeyState c1).getLast? = some e ∧
      ((cacheKeyState demoCache).filter (fun j => j ≠ 1)).getLast? = some e ∧
      e ≠ 1 ∧ has demoCache e = true ∧ has c2 e = false ∧
      (∀ j, has demoCache j = true → j ≠ e → has c2 j = true) ∧
      cacheKeyState c2 = 7 :: (cacheKeyState c1).dropLast) ∧
    (∀ (a b d e : Nat) (va vb vd ve : Nat),
      a ≠ b → a ≠ d → a ≠ e → b ≠ d → b ≠ e → d ≠ e →
      ∃ c5, run (new 3 : SynchronizedLRUCacheMap Nat Nat)
          [.insert a va, .insert b vb, .insert d vd, .access a, .insert e ve] = some c5 ∧
        cacheKeyState c5 = [e, a, d] ∧ has c5 b = false ∧ has c5 a = true)) :=
  ⟨⟨2, demoOps, by decide⟩, by decide, by decide, by decide, by decide,
   access_promotes demoCache ⟨2, demoOps, by decide⟩ (by decide) (by decide) 1 (by decide)
     7 70 (by decide)⟩

/-! ## Stored values -/

/-- After one call the stored value of every present key is still the value
most recently written for it. -/
theorem noteWrite_agree {c : SynchronizedLRUCacheMap Key Value} (hc : Consistent c)
    (hb : c._map.length ≤ c._max_elems) (w : Key → Option Value)
    (hw : ∀ k, has c k = true → valueOf c k = w k) (o : Op Key Value)
    (c1 : SynchronizedLRUCacheMap Key Value) (h1 : step c o = some c1) :
    ∀ k, has c1 k = true → valueOf c1 k = noteWrite c w o k := by
  cases o with
  | insert k v =>
    cases hk : mapFind c._map k with
    | some e =>
      have h : insert c k v = .returned false c := by simp only [insert, hk]
      simp only [step, h, Outcome.state?, Option.some.injEq] at h1
      subst h1
      simpa only [noteWrite, writes, h] using hw
    | none =>
      by_cases hpos : 1 ≤ c._max_elems
      · obtain ⟨c2, h, hc2, _, _, hkeys, hfk, hfj⟩ := insert_absent hc hb hpos k v hk
        simp only [step, h, Outcome.state?, Option.some.injEq] at h1
        subst h1
        intro j hj
        simp only [noteWrite, writes, h]
        by_cases hjk : j = k
        · subst hjk
          simp [valueOf, hfk]
        · rw [if_neg hjk]
          have hm : j ∈ cacheKeyState c2 := (hc2.has_iff j).1 hj
          have hmc : j ∈ cacheKeyState c := by
            rw [hkeys] at hm
            rcases List.mem_cons.1 hm with h2 | h2
            · exact absurd h2 hjk
            · split at h2
              · exact List.mem_of_mem_dropLast h2
              · exact h2
          rw [← hw j ((hc.has_iff j).2 hmc)]
          simp only [valueOf, hfj j hjk hm]
      · rw [step, insert_undefined_of_zero hc hb hpos k v hk] at h1
        simp [Outcome.state?] at h1
  | update k v =>
    cases hk : mapFind c._map k with
    | some e =>
      obtain ⟨c2, h, _, _, _, _, hf⟩ := update_present hc k v e hk
      simp only [step, h, Outcome.state?, Option.some.injEq] at h1
      subst h1
      intro j hj
      simp only [noteWrite, writes, h]
      by_cases hjk : j = k
      · subst hjk
        simp [valueOf, hf j]
      · have hkj : ¬ k = j := fun h => hjk h.symm
        rw [if_neg hjk]
        have hfj := hf j
        rw [if_neg hkj] at hfj
        have hjc : has c j = true := by
          simp only [has, hfj] at hj
          exact hj
        rw [← hw j hjc]
        simp only [valueOf, hfj]
    | none =>
      have h : update c k v = .returned false c := by simp only [update, hk]
      simp only [step, h, Outcome.state?, Option.some.injEq] at h1
      subst h1
      simpa only [noteWrite, writes, h] using hw
  | access k =>
    cases hk : mapFind c._map k with
    | some e =>
      obtain ⟨c2, h, _, _, _, _, hf⟩ := access_present hc k e hk
      simp only [step, h, Outcome.state?, Option.some.injEq] at h1
      subst h1
      intro j hj
      simp only [noteWrite, writes]
      have hval : valueOf c2 j = valueOf c j := by
        simp only [valueOf, hf j]
        by_cases hkj : k = j
        · subst hkj; simp [hk]
        · simp [hkj]
      have hjc : has c j = true := by
        simp only [has, hf j] at hj
        by_cases hkj : k = j
        · subst hkj; simp [has, hk]
        · simpa [has, hkj] using hj
      rw [hval, hw j hjc]
    | none =>
      have h : access c k = .thrown .keyNotFound c := by simp only [access, hk]
      simp only [step, h, Outcome.state?, Option.some.injEq] at h1
      subst h1
      simpa only [noteWrite, writes] using hw
  | resize n =>
    by_cases hn : 1 ≤ n
    · obtain ⟨c2, h, hc2, _, _, hkeys, hfind⟩ := resize_valid hc n hn
      simp only [step, h, Outcome.state?, Option.some.injEq] at h1
      subst h1
      intro j hj
      simp only [noteWrite, writes]
      have hm : j ∈ cacheKeyState c2 := (hc2.has_iff j).1 hj
      have hmc : j ∈ cacheKeyState c := by
        rw [hkeys] at hm
        exact List.mem_of_mem_take hm
      rw [← hw j ((hc.has_iff j).2 hmc)]
      simp only [valueOf, hfind j hm]
    · have hn1 : n < 1 := by omega
      have h : resize c n = .thrown .cacheSizeNotPositive c := by simp only [resize, hn1, if_true]
      simp only [step, h, Outcome.state?, Option.some.injEq] at h1
      subst h1
      simpa only [noteWrite, writes] using hw

theorem runWrites_spec (ops : List (Op Key Value)) :
    ∀ (c : SynchronizedLRUCacheMap Key Value) (w : Key → Option Value),
    Consistent c → c._map.length ≤ c._max_elems → 1 ≤ c._max_elems →
    (∀ k, has c k = true → valueOf c k = w k) →
    ∃ c1 w1, runWrites c w ops = some (c1, w1) ∧ run c ops = some c1 ∧
      Consistent c1 ∧ c1._map.length ≤ c1._max_elems ∧
      (∀ k, has c1 k = true → valueOf c1 k = w1 k) := by
  induction ops with
  | nil =>
    intro c w hc hb _ hw
    exact ⟨c, w, rfl, rfl, hc, hb, hw⟩
  | cons o os ih =>
    intro c w hc hb hp hw
    obtain ⟨htot, hpres⟩ := step_inv hc hb o
    obtain ⟨c1, h1⟩ := htot hp
    obtain ⟨hc1, hb1, hp1⟩ := hpres c1 h1
    obtain ⟨c2, w2, hr, hrun, hc2, hb2, hw2⟩ :=
      ih c1 (noteWrite c w o) hc1 hb1 (hp1 hp) (noteWrite_agree hc hb w hw o c1 h1)
    exact ⟨c2, w2, by simp only [runWrites, h1, hr], by simp only [run, h1, hrun], hc2, hb2, hw2⟩

/-- C15 (stored value round trip): on a cache constructed with a positive
capacity every sequence of calls runs to completion, and for every key `k`
present at the end `access(k)` returns the value passed to the most recent
`insert(k, _)` or `update(k, _)` that returned true.  A further call that is
not such a write of `k` and leaves `k` in the cache (a call on another key, a
failed insert or update, an access, a resize) leaves the value of `k`
unchanged. -/
theorem stored_value_round_trip (cap : Nat) (hcap : 1 ≤ cap) (ops : List (Op Key Value)) :
    ∃ (c : SynchronizedLRUCacheMap Key Value) (w : Key → Option Value),
      run (new cap) ops = some c ∧
      runWrites (new cap) (fun _ => none) ops = some (c, w) ∧
      (∀ k, has c k = true → ∃ v c1, w k = some v ∧ access c k = .returned v c1) ∧
      (∀ (o : Op Key Value) (c1 : SynchronizedLRUCacheMap Key Value) (k : Key),
        step c o = some c1 → has c k = true → has c1 k = true →
        (∀ v, writes c o ≠ some (k, v)) → valueOf c1 k = valueOf c k) := by
  obtain ⟨c, w, hr, hrun, hc, hb, hw⟩ :=
    runWrites_spec ops (new cap : SynchronizedLRUCacheMap Key Value) (fun _ => none)
      (consistent_new cap) (by simp [new]) hcap (by simp [has, new, mapFind])
  refine ⟨c, w, hrun, hr, ?_, ?_⟩
  · intro k hk
    obtain ⟨e, he⟩ := (has_eq_true_iff c k).1 hk
    obtain ⟨c1, h, _⟩ := access_present hc k e he
    refine ⟨e.1, c1, ?_, h⟩
    rw [← hw k hk]
    simp [valueOf, he]
  · intro o c1 k h1 hk hk1 hnw
    rw [noteWrite_agree hc hb w hw o c1 h1 k hk1, hw k hk]
    simp only [noteWrite]
    cases hwr : writes c o with
    | none => rfl
    | some p =>
      obtain ⟨k2, v2⟩ := p
      have hne : ¬ k = k2 := by
        intro h
        subst h
        exact hnw v2 hwr
      simp only [hne, if_false]

theorem stored_value_round_trip_witness :
    1 ≤ 2 ∧ ∃ (c : SynchronizedLRUCacheMap Nat Nat) (w : Nat → Option Nat),
      run (new 2) demoOps = some c ∧
      runWrites (new 2) (fun _ => none) demoOps = some (c, w) ∧
      (∀ k, has c k = true → ∃ v c1, w k = some v ∧ access c k = .returned v c1) ∧
      (∀ (o : Op Nat Nat) (c1 : SynchronizedLRUCacheMap Nat Nat) (k : Nat),
        step c o = some c1 → has c k = true → has c1 k = true →
        (∀ v, writes c o ≠ some (k, v)) → valueOf c1 k = valueOf c k) :=
  ⟨by decide, stored_value_round_trip 2 (by decide) demoOps⟩

/-- C16 (`has` is a pure membership test): in a reachable state `has(k)`
returns true exactly when `k` occurs in the key order of `cacheKeyState()`,
which is exactly when `access(k)` returns a value; and the call leaves the
object (capacity, key order, values) as it was. -/
theorem has_pure_membership (c : SynchronizedLRUCacheMap Key Value) (hr : Reachable c)
    (k : Key) :
    ∃ b, hasCall c k = .returned b c ∧
      (b = true ↔ k ∈ cacheKeyState c) ∧
      (b = true ↔ ∃ v c1, access c k = .returned v c1) ∧
      (b = false ↔ ∃ c1, access c k = .thrown .keyNotFound c1) := by
  obtain ⟨hc, _⟩ := hr.inv
  refine ⟨has c k, rfl, hc.has_iff k, ?_, ?_⟩
  · constructor
    · intro h
      obtain ⟨e, he⟩ := (has_eq_true_iff c k).1 h
      obtain ⟨c1, h1, _⟩ := access_present hc k e he
      exact ⟨e.1, c1, h1⟩
    · rintro ⟨v, c1, h1⟩
      cases hh : has c k with
      | true => rfl
      | false =>
        have he := (has_eq_false_iff c k).1 hh
        simp [access, he] at h1
  · constructor
    · intro h
      have he := (has_eq_false_iff c k).1 h
      exact ⟨c, by simp only [access, he]⟩
    · rintro ⟨c1, h1⟩
      cases hh : has c k with
      | false => rfl
      | true =>
        obtain ⟨e, he⟩ := (has_eq_true_iff c k).1 hh
        obtain ⟨c2, h2, _⟩ := access_present hc k e he
        rw [h2] at h1
        simp at h1

theorem has_pure_membership_witness :
    Reachable demoCache ∧
    ∃ b, hasCall demoCache 3 = .returned b demoCache ∧
      (b = true ↔ 3 ∈ cacheKeyState demoCache) ∧
      (b = true ↔ ∃ v c1, access demoCache 3 = .returned v c1) ∧
      (b = false ↔ ∃ c1, access demoCache 3 = .thrown .keyNotFound c1) :=
  ⟨⟨2, demoOps, by decide⟩, has_pure_membership demoCache ⟨2, demoOps, by decide⟩ 3⟩

/-- C17 (the capacity is not always positive): the constructor stores its
argument unchecked, so `SynchronizedLRUCacheMap(0)` has capacity 0 and keeps
it through calls that do not resize, although `resize(0)` is rejected with
"cache size must be positive"; on that object the first `insert` takes
`_ruq.back()` of an empty list. -/
theorem constructor_accepts_zero :
    (new 0 : SynchronizedLRUCacheMap Nat Nat)._max_elems = 0 ∧
    run (new 0 : SynchronizedLRUCacheMap Nat Nat) [.access 1, .update 1 10, .resize 0]
      = some (new 0) ∧
    resize (new 3 : SynchronizedLRUCacheMap Nat Nat) 0
      = .thrown .cacheSizeNotPositive (new 3) ∧
    insert (new 0 : SynchronizedLRUCacheMap Nat Nat) 1 10 = .undefined := by
  refine ⟨rfl, ?_, ?_, ?_⟩
  · simp [run, step, access, update, resize, new, mapFind, Outcome.state?]
  · simp [resize]
  · simp [insert, new, mapFind, popLru, listBack]

/-- With a positive constructor argument the capacity stays positive and
bounds the number of entries after every sequence of calls. -/
theorem capacity_positive_of_positive (cap : Nat) (hcap : 1 ≤ cap) (ops : List (Op Key Value)) :
    ∃ c : SynchronizedLRUCacheMap Key Value,
      run (new cap) ops = some c ∧ 1 ≤ c._max_elems ∧ size c ≤ c._max_elems := by
  have hinv := run_inv ops (new cap : SynchronizedLRUCacheMap Key Value)
    (consistent_new cap) (by simp [new])
  obtain ⟨c, hrun, hpos⟩ := hinv.1 hcap
  exact ⟨c, hrun, hpos, (hinv.2 c hrun).2⟩

/-! ## Defined list accesses -/

theorem filter_eq_singleton_of_nodup {α β : Type} [DecidableEq β] (f : α → β) (l : List α)
    (hn : (l.map f).Nodup) (x : α) (hx : x ∈ l) :
    l.filter (fun p => decide (f p = f x)) = [x] := by
  induction l with
  | nil => simp at hx
  | cons y l ih =>
    simp only [List.map_cons, List.nodup_cons, List.mem_map, not_exists, not_and] at hn
    by_cases hy : f y = f x
    · have hxy : x = y := by
        rcases List.mem_cons.1 hx with h | h
        · exact h
        · exact absurd hy.symm (hn.1 x h)
      subst hxy
      have hnil : l.filter (fun p => decide (f p = f x)) = [] := by
        rw [List.filter_eq_nil_iff]
        intro p hp
        simpa using hn.1 p hp
      simp [List.filter_cons, hnil]
    · have hx1 : x ∈ l := by
        rcases List.mem_cons.1 hx with h | h
        · exact absurd (h ▸ rfl) hy
        · exact h
      simp [List.filter_cons, hy, ih hn.2 hx1]

/-- C19 (list accesses are always defined): on a cache constructed with a
capacity of at least 1 every sequence of calls runs to completion, and in the
state reached: a full cache has a non-empty queue, so the `back`/`pop_back` of
`insert` is defined; the position stored in the index for a key `k` is the
position of exactly one node, that node is the only one holding `k`, and
erasing it removes just that node; and none of `insert`, `update`, `access`,
`resize` (whose loop pops repeatedly) runs into undefined behaviour. -/
theorem list_accesses_defined (cap : Nat) (hcap : 1 ≤ cap) (ops : List (Op Key Value)) :
    ∃ c : SynchronizedLRUCacheMap Key Value, run (new cap) ops = some c ∧
      (size c = c._max_elems → c._ruq ≠ [] ∧ ∃ e, listBack c._ruq = some e) ∧
      (∀ k e, mapFind c._map k = some e →
        c._ruq.filter (fun p => p.1 = e.2) = [(e.2, k)] ∧
        c._ruq.filter (fun p => p.2 = k) = [(e.2, k)] ∧
        listErase c._ruq e.2 = some (c._ruq.filter (fun p => p.2 ≠ k))) ∧
      (∀ k v, insert c k v ≠ .undefined) ∧
      (∀ k v, update c k v ≠ .undefined) ∧
      (∀ k, access c k ≠ .undefined) ∧
      (∀ n, resize c n ≠ .undefined) := by
  have hinv := run_inv ops (new cap : SynchronizedLRUCacheMap Key Value)
    (consistent_new cap) (by simp [new])
  obtain ⟨c, hrun, hpos⟩ := hinv.1 hcap
  obtain ⟨hc, hb⟩ := hinv.2 c hrun
  have hdef : ∀ o, step c o ≠ none := by
    intro o h
    obtain ⟨c1, h1⟩ := (step_inv hc hb o).1 hpos
    rw [h] at h1
    exact absurd h1 (by simp)
  refine ⟨c, hrun, ?_, ?_, ?_, ?_, ?_, ?_⟩
  · intro hfull
    have hlen := hc.length_eq
    have hne : c._ruq ≠ [] := by
      intro h
      rw [h] at hlen
      simp only [size] at hfull
      simp only [List.length_nil] at hlen
      omega
    refine ⟨hne, ?_⟩
    rcases ruq_nil_or_concat c._ruq with h | ⟨l, p, h⟩
    · exact absurd h hne
    · exact ⟨p.2, by simp [listBack, h]⟩
  · intro k e he
    have hm := hc.handle k e he
    refine ⟨?_, ?_, ?_⟩
    · exact filter_eq_singleton_of_nodup Prod.fst c._ruq hc.ruqIds_nodup (e.2, k) hm
    · exact filter_eq_singleton_of_nodup Prod.snd c._ruq hc.ruqKeys_nodup (e.2, k) hm
    · rw [listErase_of_mem c._ruq e.2 k hc.ruqIds_nodup hc.ruqKeys_nodup hm]
      congr 2
      funext p
      simp
  · intro k v h
    apply hdef (.insert k v)
    simp [step, h, Outcome.state?]
  · intro k v h
    apply hdef (.update k v)
    simp [step, h, Outcome.state?]
  · intro k h
    apply hdef (.access k)
    simp [step, h, Outcome.state?]
  · intro n h
    apply hdef (.resize n)
    simp [step, h, Outcome.state?]

theorem list_accesses_defined_witness :
    1 ≤ 2 ∧ ∃ c : SynchronizedLRUCacheMap Nat Nat, run (new 2) demoOps = some c ∧
      (size c = c._max_elems → c._ruq ≠ [] ∧ ∃ e, listBack c._ruq = some e) ∧
      (∀ k e, mapFind c._map k = some e →
        c._ruq.filter (fun p => p.1 = e.2) = [(e.2, k)] ∧
        c._ruq.filter (fun p => p.2 = k) = [(e.2, k)] ∧
        listErase c._ruq e.2 = some (c._ruq.filter (fun p => p.2 ≠ k))) ∧
      (∀ k v, insert c k v ≠ .undefined) ∧
      (∀ k v, update c k v ≠ .undefined) ∧
      (∀ k, access c k ≠ .undefined) ∧
      (∀ n, resize c n ≠ .undefined) :=
  ⟨by decide, list_accesses_defined 2 (by decide) demoOps⟩

/-! ## Equivalence with the reference LRU order -/

theorem mem_recencyOrder (h : List Key) (j : Key) : j ∈ recencyOrder h ↔ j ∈ h := by
  induction h with
  | nil => simp [recencyOrder]
  | cons k older ih =>
    by_cases hjk : j = k
    · simp [recencyOrder, hjk]
    · simp [recencyOrder, hjk, List.mem_filter, ih]

theorem recencyOrder_nodup (h : List Key) : (recencyOrder h).Nodup := by
  induction h with
  | nil => simp [recencyOrder]
  | cons k older ih =>
    simp only [recencyOrder, List.nodup_cons]
    refine ⟨?_, ih.filter _⟩
    intro hm
    have := (List.mem_filter.1 hm).2
    simp at this

theorem recencyOrder_length (h : List Key) : (recencyOrder h).length = h.dedup.length := by
  apply List.Perm.length_eq
  refine (List.perm_ext_iff_of_nodup (recencyOrder_nodup h) (List.nodup_dedup h)).2 ?_
  intro j
  rw [mem_recencyOrder, List.mem_dedup]

theorem referenceLru_eq (cap : Nat) (h : List Key) :
    referenceLru cap h = (recencyOrder h).take cap := by
  rw [referenceLru, ← recencyOrder_length, Nat.min_comm, take_min_length]

theorem filter_take_of_not_mem (R : List Key) (k : Key) :
    ∀ m, k ∉ R.take m → (R.filter (fun j => !decide (j = k))).take m = R.take m := by
  induction R with
  | nil => intro m _; simp
  | cons x R ih =>
    intro m hk
    cases m with
    | zero => simp
    | succ m =>
      simp only [List.take_succ_cons, List.mem_cons, not_or] at hk
      have hxk : ¬ x = k := fun h => hk.1 h.symm
      simp only [List.filter_cons, hxk, decide_False, Bool.not_false, if_true,
        List.take_succ_cons, ih m hk.2]

theorem filter_take_of_mem (R : List Key) (k : Key) :
    ∀ m, R.Nodup → k ∈ R.take (m + 1) →
      (R.filter (fun j => !decide (j = k))).take m
        = (R.take (m + 1)).filter (fun j => !decide (j = k)) := by
  induction R with
  | nil => intro m _ hk; simp at hk
  | cons x R ih =>
    intro m hn hk
    simp only [List.nodup_cons] at hn
    by_cases hxk : x = k
    · subst hxk
      have hfR : R.filter (fun j => !decide (j = x)) = R := by
        rw [List.filter_eq_self]
        intro a ha
        have : ¬ a = x := fun h => hn.1 (h ▸ ha)
        simp [this]
      have hfT : (R.take m).filter (fun j => !decide (j = x)) = R.take m := by
        rw [List.filter_eq_self]
        intro a ha
        have : ¬ a = x := fun h => hn.1 (h ▸ List.mem_of_mem_take ha)
        simp [this]
      simp only [List.take_succ_cons, List.filter_cons, decide_True, Bool.not_true,
        Bool.false_eq_true, if_false, hfR, hfT]
    · have hk1 : k ∈ R.take m := by
        simp only [List.take_succ_cons, List.mem_cons] at hk
        rcases hk with h | h
        · exact absurd h.symm hxk
        · exact h
      cases m with
      | zero => simp at hk1
      | succ m =>
        simp only [List.take_succ_cons, List.filter_cons, hxk, decide_False, Bool.not_false,
          if_true]
        rw [ih m hn.2 hk1]

/-- One call that is not a resize keeps the queue equal to the first `cap` keys
of the reference order of the touch history. -/
theorem history_step {c : SynchronizedLRUCacheMap Key Value} (hc : Consistent c)
    (hb : c._map.length ≤ c._max_elems) (hpos : 1 ≤ c._max_elems) (hist : List Key)
    (hk : cacheKeyState c = (recencyOrder hist).take c._max_elems)
    (o : Op Key Value) (hnr : o.isResize = false)
    (c1 : SynchronizedLRUCacheMap Key Value) (h1 : step c o = some c1) :
    c1._max_elems = c._max_elems ∧
    cacheKeyState c1
      = (recencyOrder (match touches c o with
                       | some k => k :: hist
                       | none => hist)).take c1._max_elems := by
  obtain ⟨m, hm⟩ : ∃ m, c._max_elems = m + 1 := ⟨c._max_elems - 1, by omega⟩
  have promote : ∀ k, k ∈ cacheKeyState c →
      k :: (cacheKeyState c).filter (fun j => !decide (j = k))
        = (recencyOrder (k :: hist)).take c._max_elems := by
    intro k hkm
    rw [hk, hm] at hkm
    simp only [recencyOrder, hm, List.take_succ_cons, filter_ne_eq]
    rw [filter_take_of_mem _ k m (recencyOrder_nodup hist) hkm, hk, hm]
  have fresh : ∀ k, k ∉ cacheKeyState c →
      k :: (if size c = c._max_elems then (cacheKeyState c).dropLast else cacheKeyState c)
        = (recencyOrder (k :: hist)).take c._max_elems := by
    intro k hkm
    have hle : (cacheKeyState c).length ≤ c._max_elems := by rw [hc.size_eq]; exact hb
    have h2 := take_cons_of_le k (cacheKeyState c) c._max_elems hpos hle
    rw [hc.size_eq] at h2
    rw [h2]
    have hkm1 : k ∉ (recencyOrder hist).take m := by
      intro h
      apply hkm
      rw [hk, hm]
      exact (List.take_subset_take_left _ (Nat.le_succ m)) h
    simp only [recencyOrder, hm, List.take_succ_cons, filter_ne_eq]
    rw [filter_take_of_not_mem _ k m hkm1, hk, hm, List.take_take, Nat.min_eq_left (Nat.le_succ m)]
  cases o with
  | insert k v =>
    cases hkf : mapFind c._map k with
    | some e =>
      have h : insert c k v = .returned false c := by simp only [insert, hkf]
      simp only [step, h, Outcome.state?, Option.some.injEq] at h1
      subst h1
      exact ⟨rfl, by simpa only [touches, h] using hk⟩
    | none =>
      obtain ⟨c2, h, _, _, hcap, hkeys, _⟩ := insert_absent hc hb hpos k v hkf
      simp only [step, h, Outcome.state?, Option.some.injEq] at h1
      subst h1
      have hk2 : k ∉ cacheKeyState c := fun hmem => (hc.mem_keys_iff k).1 hmem hkf
      refine ⟨hcap, ?_⟩
      simp only [touches, h, hcap]
      rw [hkeys]
      exact fresh k hk2
  | update k v =>
    cases hkf : mapFind c._map k with
    | some e =>
      obtain ⟨c2, h, _, hcap, _, hkeys, _⟩ := update_present hc k v e hkf
      simp only [step, h, Outcome.state?, Option.some.injEq] at h1
      subst h1
      have hk2 : k ∈ cacheKeyState c := (hc.mem_keys_iff k).2 (by rw [hkf]; simp)
      refine ⟨hcap, ?_⟩
      simp only [touches, h, hcap]
      rw [hkeys]
      exact promote k hk2
    | none =>
      have h : update c k v = .returned false c := by simp only [update, hkf]
      simp only [step, h, Outcome.state?, Option.some.injEq] at h1
      subst h1
      exact ⟨rfl, by simpa only [touches, h] using hk⟩
  | access k =>
    cases hkf : mapFind c._map k with
    | some e =>
      obtain ⟨c2, h, _, hcap, _, hkeys, _⟩ := access_present hc k e hkf
      simp only [step, h, Outcome.state?, Option.some.injEq] at h1
      subst h1
      have hk2 : k ∈ cacheKeyState c := (hc.mem_keys_iff k).2 (by rw [hkf]; simp)
      refine ⟨hcap, ?_⟩
      simp only [touches, h, hcap]
      rw [hkeys]
      exact promote k hk2
    | none =>
      have h : access c k = .thrown .keyNotFound c := by simp only [access, hkf]
      simp only [step, h, Outcome.state?, Option.some.injEq] at h1
      subst h1
      exact ⟨rfl, by simpa only [touches, h] using hk⟩
  | resize n => simp [Op.isResize] at hnr

theorem runHistory_spec (ops : List (Op Key Value)) :
    ∀ (c : SynchronizedLRUCacheMap Key Value) (hist : List Key),
    Consistent c → c._map.length ≤ c._max_elems → 1 ≤ c._max_elems →
    cacheKeyState c = (recencyOrder hist).take c._max_elems →
    (∀ o ∈ ops, o.isResize = false) →
    ∃ c1 hist1, runHistory c hist ops = some (c1, hist1) ∧ run c ops = some c1 ∧
      Consistent c1 ∧ c1._max_elems = c._max_elems ∧
      cacheKeyState c1 = (recencyOrder hist1).take c1._max_elems := by
  induction ops with
  | nil =>
    intro c hist hc _ _ hk _
    exact ⟨c, hist, rfl, rfl, hc, rfl, hk⟩
  | cons o os ih =>
    intro c hist hc hb hp hk hnr
    obtain ⟨htot, hpres⟩ := step_inv hc hb o
    obtain ⟨c1, h1⟩ := htot hp
    obtain ⟨hc1, hb1, hp1⟩ := hpres c1 h1
    obtain ⟨hcap1, hk1⟩ :=
      history_step hc hb hp hist hk o (hnr o (List.mem_cons_self _ _)) c1 h1
    obtain ⟨c2, hist2, hr, hrun, hc2, hcap2, hk2⟩ :=
      ih c1 _ hc1 hb1 (hp1 hp) hk1 (fun o1 ho1 => hnr o1 (List.mem_cons_of_mem _ ho1))
    exact ⟨c2, hist2, by simp only [runHistory, h1, hr], by simp only [run, h1, hrun], hc2,
      hcap2.trans hcap1, hk2⟩

/-- C20 (equivalence with the reference LRU definition): for a capacity
`C >= 1` and a sequence of insert, update and access calls without resize on a
freshly constructed cache of capacity `C`, the calls run to completion, and
with `hist` the history of touches (successful inserts, updates and accesses,
the most recent first) `cacheKeyState()` is the reference content
`referenceLru C hist`: the `min C d` most recently touched distinct keys, from
the most to the least recently touched, `d` being the number of distinct keys
ever touched; these are exactly the keys present, and `size()` is `min C d`. -/
theorem lru_reference_equivalence (C : Nat) (hC : 1 ≤ C) (ops : List (Op Key Value))
    (hnr : ∀ o ∈ ops, o.isResize = false) :
    ∃ (c : SynchronizedLRUCacheMap Key Value) (hist : List Key),
      run (new C) ops = some c ∧
      runHistory (new C) [] ops = some (c, hist) ∧
      cacheKeyState c = referenceLru C hist ∧
      (∀ k, has c k = true ↔ k ∈ referenceLru C hist) ∧
      size c = min C hist.dedup.length := by
  obtain ⟨c, hist, hr, hrun, hc, hcap, hk⟩ :=
    runHistory_spec ops (new C : SynchronizedLRUCacheMap Key Value) []
      (consistent_new C) (by simp [new]) hC (by simp [new, cacheKeyState, recencyOrder]) hnr
  have hcapC : c._max_elems = C := hcap
  have hk1 : cacheKeyState c = referenceLru C hist := by
    rw [referenceLru_eq, hk, hcapC]
  refine ⟨c, hist, hrun, hr, hk1, ?_, ?_⟩
  · intro k
    rw [hc.has_iff, hk1]
  · rw [← hc.size_eq, hk1, referenceLru, List.length_take, recencyOrder_length]
    omega

theorem lru_reference_equivalence_witness :
    1 ≤ 2 ∧ (∀ o ∈ demoOps, o.isResize = false) ∧
    ∃ (c : SynchronizedLRUCacheMap Nat Nat) (hist : List Nat),
      run (new 2) demoOps = some c ∧
      runHistory (new 2) [] demoOps = some (c, hist) ∧
      cacheKeyState c = referenceLru 2 hist ∧
      (∀ k, has c k = true ↔ k ∈ referenceLru 2 hist) ∧
      size c = min 2 hist.dedup.length :=
  ⟨by decide, by decide, lru_reference_equivalence 2 (by decide) demoOps (by decide)⟩

end LRU
